import Mathlib

/-!
# Verification of the schwab-csv-tools core against its specification

Shallow embedding of the core of `schwab_csv_tools` (the transfer-matching,
symbol-resolution, rounding-reconciliation and date-parsing logic of
`common.py`, `merge_transactions.py` and `postprocess.py`) together with
theorems settling the specification claims.

Python `float` arithmetic is modelled by exact rational arithmetic (`ℚ`);
numeric CSV fields are parsed from their string form by executable decimal
parsers mirroring `float()` on the decimal-literal fragment actually used by
the data, and `f"{x:.2f}"` formatting is modelled by round-half-even at two
decimal places.  Exceptions are modelled by `Option`/`Bool` results.
-/

namespace Schwab

/-! ## Character classes (ASCII, as used by Python `str` helpers) -/

/-- Python whitespace characters (`str.strip`, `str.split`, `\s`), ASCII part. -/
def isWsChar (c : Char) : Bool :=
  c = ' ' || c = '\t' || c = '\n' || c = '\r' || c = '\x0b' || c = '\x0c'

/-- ASCII lower-casing, as `str.lower` acts on ASCII. -/
def lowerChar (c : Char) : Char :=
  if 'A' ≤ c ∧ c ≤ 'Z' then Char.ofNat (c.toNat + 32) else c

/-- ASCII upper-casing, as `str.upper` acts on ASCII. -/
def upperChar (c : Char) : Char :=
  if 'a' ≤ c ∧ c ≤ 'z' then Char.ofNat (c.toNat - 32) else c

/-- `str.strip` on a character list: drop whitespace from both ends. -/
def stripChars (l : List Char) : List Char :=
  ((l.dropWhile isWsChar).reverse.dropWhile isWsChar).reverse

/-- `str.strip` on a `String`. -/
def strip (s : String) : String := String.mk (stripChars s.data)

/-! ## Decimal digits -/

/-- Decimal digit character for `n % 10`. -/
def dchar (n : ℕ) : Char := Char.ofNat (48 + n % 10)

/-- Numeric value of a digit character. -/
def digitVal (c : Char) : ℕ := c.toNat - 48

/-- Value of a digit string (most significant first). -/
def natVal (l : List Char) : ℕ := l.foldl (fun a c => 10 * a + digitVal c) 0

/-- Fuelled digit expansion (structural, so that it evaluates by reduction). -/
def natCharsAux : ℕ → ℕ → List Char
  | 0, _ => []
  | fuel + 1, n =>
      if n < 10 then [dchar n] else natCharsAux fuel (n / 10) ++ [dchar (n % 10)]

/-- Decimal rendering of a natural number, most significant digit first
(the model of Python `str(n)` / `f"{n}"`). -/
def natChars (n : ℕ) : List Char := natCharsAux (n + 1) n

/-- `str(n)` as a `String`. -/
def natStr (n : ℕ) : String := String.mk (natChars n)

theorem digitVal_dchar (n : ℕ) : digitVal (dchar n) = n % 10 := by
  have h : ∀ m, m < 10 → digitVal (Char.ofNat (48 + m)) = m := by decide
  have := h (n % 10) (Nat.mod_lt _ (by omega))
  simpa [dchar] using this

theorem isDigit_dchar (n : ℕ) : (dchar n).isDigit = true := by
  have h : ∀ m, m < 10 → (Char.ofNat (48 + m)).isDigit = true := by decide
  have := h (n % 10) (Nat.mod_lt _ (by omega))
  simpa [dchar] using this

theorem natVal_append_digit (l : List Char) (c : Char) :
    natVal (l ++ [c]) = 10 * natVal l + digitVal c := by
  simp [natVal, List.foldl_append]

theorem natVal_natCharsAux (fuel : ℕ) :
    ∀ n, n < fuel → natVal (natCharsAux fuel n) = n := by
  induction fuel with
  | zero => intro n h; omega
  | succ fuel ih =>
    intro n h
    rw [natCharsAux]
    split
    · simp [natVal, digitVal_dchar]
      omega
    · rw [natVal_append_digit, ih (n / 10) (by omega), digitVal_dchar]
      omega

theorem natVal_natChars (n : ℕ) : natVal (natChars n) = n :=
  natVal_natCharsAux (n + 1) n (by omega)

theorem natChars_ne_nil (n : ℕ) : natChars n ≠ [] := by
  unfold natChars natCharsAux
  split <;> simp

theorem natCharsAux_all_digits (fuel : ℕ) :
    ∀ n, ∀ c ∈ natCharsAux fuel n, c.isDigit = true := by
  induction fuel with
  | zero => intro n c hc; cases hc
  | succ fuel ih =>
    intro n c hc
    rw [natCharsAux] at hc
    split at hc
    · simp at hc; subst hc; exact isDigit_dchar _
    · rcases List.mem_append.mp hc with h | h
      · exact ih (n / 10) c h
      · simp at h; subst h; exact isDigit_dchar _

theorem natChars_all_digits (n : ℕ) : ∀ c ∈ natChars n, c.isDigit = true :=
  natCharsAux_all_digits (n + 1) n

theorem natStr_injective : Function.Injective natStr := by
  intro a b h
  have : natChars a = natChars b := congrArg String.data h
  have := congrArg natVal this
  simpa [natVal_natChars] using this

/-- Digit characters are not whitespace. -/
theorem not_ws_of_digit {c : Char} (h : c.isDigit = true) : isWsChar c = false := by
  simp only [isWsChar, Bool.or_eq_false_iff, decide_eq_false_iff_not]
  refine ⟨⟨⟨⟨⟨?_, ?_⟩, ?_⟩, ?_⟩, ?_⟩, ?_⟩ <;>
    · intro hc; subst hc; simp at h

/-! ## Exact fractions with kernel-computable arithmetic

Python `float` values are modelled by exact rationals.  Mathlib's `ℚ` does
not reduce inside the kernel (its operations normalize by gcd), so the
embedded code computes on unreduced fractions `Frac` (integer numerator,
positive natural denominator); `toQ` maps them to `ℚ`, and every operation
is transported to the corresponding `ℚ` operation by a lemma below. -/

structure Frac where
  num : ℤ
  den : ℕ
  pos : 0 < den

/-- The rational value of a fraction. -/
def toQ (x : Frac) : ℚ := (x.num : ℚ) / (x.den : ℚ)

def fneg (x : Frac) : Frac := ⟨-x.num, x.den, x.pos⟩

def fadd (x y : Frac) : Frac :=
  ⟨x.num * y.den + y.num * x.den, x.den * y.den, Nat.mul_pos x.pos y.pos⟩

def fsub (x y : Frac) : Frac := fadd x (fneg y)

def fmul (x y : Frac) : Frac :=
  ⟨x.num * y.num, x.den * y.den, Nat.mul_pos x.pos y.pos⟩

def fabs (x : Frac) : Frac := ⟨|x.num|, x.den, x.pos⟩

/-- `x < y` on fractions, by cross-multiplication. -/
def flt (x y : Frac) : Prop := x.num * y.den < y.num * x.den

/-- `x ≤ y` on fractions, by cross-multiplication. -/
def fle (x y : Frac) : Prop := x.num * y.den ≤ y.num * x.den

instance (x y : Frac) : Decidable (flt x y) := by unfold flt; infer_instance

instance (x y : Frac) : Decidable (fle x y) := by unfold fle; infer_instance

def fOfInt (n : ℤ) : Frac := ⟨n, 1, Nat.one_pos⟩

def fZero : Frac := fOfInt 0

def fHalf : Frac := ⟨1, 2, by omega⟩

def f100 : Frac := fOfInt 100

/-- Floor of a fraction (Euclidean division by a positive denominator). -/
def ffloor (x : Frac) : ℤ := x.num / (x.den : ℤ)

theorem denQ_pos (x : Frac) : (0 : ℚ) < (x.den : ℚ) := by
  exact_mod_cast x.pos

theorem denQ_ne (x : Frac) : ((x.den : ℚ)) ≠ 0 := ne_of_gt (denQ_pos x)

theorem toQ_fneg (x : Frac) : toQ (fneg x) = -toQ x := by
  unfold toQ fneg
  push_cast
  ring

theorem toQ_fadd (x y : Frac) : toQ (fadd x y) = toQ x + toQ y := by
  unfold toQ fadd
  have hx := denQ_ne x
  have hy := denQ_ne y
  push_cast
  field_simp
  try ring

theorem toQ_fsub (x y : Frac) : toQ (fsub x y) = toQ x - toQ y := by
  unfold fsub
  rw [toQ_fadd, toQ_fneg]
  ring

theorem toQ_fmul (x y : Frac) : toQ (fmul x y) = toQ x * toQ y := by
  unfold toQ fmul
  have hx := denQ_ne x
  have hy := denQ_ne y
  push_cast
  field_simp

theorem toQ_fabs (x : Frac) : toQ (fabs x) = |toQ x| := by
  unfold toQ fabs
  rw [abs_div, abs_of_pos (denQ_pos x)]
  push_cast
  rfl

theorem toQ_fOfInt (n : ℤ) : toQ (fOfInt n) = (n : ℚ) := by
  unfold toQ fOfInt
  simp

theorem toQ_fZero : toQ fZero = 0 := by
  unfold fZero
  rw [toQ_fOfInt]
  simp

theorem toQ_fHalf : toQ fHalf = 1/2 := by
  unfold toQ fHalf
  norm_num

theorem toQ_f100 : toQ f100 = 100 := by
  unfold f100
  rw [toQ_fOfInt]
  norm_num

theorem flt_iff (x y : Frac) : flt x y ↔ toQ x < toQ y := by
  unfold flt toQ
  rw [div_lt_div_iff (denQ_pos x) (denQ_pos y)]
  constructor
  · intro h
    exact_mod_cast h
  · intro h
    exact_mod_cast h

theorem fle_iff (x y : Frac) : fle x y ↔ toQ x ≤ toQ y := by
  unfold fle toQ
  rw [div_le_div_iff (denQ_pos x) (denQ_pos y)]
  constructor
  · intro h
    exact_mod_cast h
  · intro h
    exact_mod_cast h

theorem ffloor_eq (x : Frac) : ffloor x = ⌊toQ x⌋ := by
  unfold ffloor toQ
  rw [Rat.floor_intCast_div_natCast]

/-! ## Decimal parsing (model of Python `float()` on decimal literals)

`float()` accepts an optionally signed decimal literal with optional
fractional part, surrounded by optional whitespace; every other input raises
`ValueError`, modelled by `none`. -/

/-- Unsigned decimal literal: `digits`, `digits.digits`, `digits.`, `.digits`;
the value of `ip.fp` is the exact fraction `(ip·10^|fp| + fp) / 10^|fp|`. -/
def parseUnsigned (l : List Char) : Option Frac :=
  if l.dropWhile (·.isDigit) = [] then
    (if l.takeWhile (·.isDigit) = [] then none
     else some ⟨(natVal (l.takeWhile (·.isDigit)) : ℤ), 1, Nat.one_pos⟩)
  else if (l.dropWhile (·.isDigit)).head? = some '.' then
    (if (l.takeWhile (·.isDigit) = [] ∧ (l.dropWhile (·.isDigit)).tail = []) ∨
        ¬(((l.dropWhile (·.isDigit)).tail).all (·.isDigit) = true) then none
     else some ⟨((natVal (l.takeWhile (·.isDigit))
            * 10 ^ ((l.dropWhile (·.isDigit)).tail).length
            + natVal ((l.dropWhile (·.isDigit)).tail) : ℕ) : ℤ),
          10 ^ ((l.dropWhile (·.isDigit)).tail).length,
          Nat.pos_pow_of_pos _ (by omega)⟩)
  else none

/-- Optionally signed decimal literal. -/
def parseSigned (l : List Char) : Option Frac :=
  match l with
  | [] => parseUnsigned []
  | c :: r =>
      if c = '-' then (parseUnsigned r).map fneg
      else if c = '+' then parseUnsigned r
      else parseUnsigned (c :: r)

/-- `float(s)`: strip surrounding whitespace, then signed decimal literal. -/
def parseFloat (l : List Char) : Option Frac := parseSigned (stripChars l)

/-- `common.parse_currency`: `float(s.replace("$", "").replace(",", ""))`;
the `ValueError` raised on bad input is modelled by `none`. -/
def parse_currency (s : String) : Option Frac :=
  parseFloat (s.data.filter (fun c => !(c = '$' || c = ',')))

/-- `common.parse_quantity`: `None` on empty/blank, else
`float(s.replace(",", ""))` with `ValueError` mapped to `None`. -/
def parse_quantity (s : String) : Option Frac :=
  if stripChars s.data = [] then none
  else parseFloat (s.data.filter (fun c => !(c = ',')))

/-- `merge_transactions._parse_amount`: `None` on empty/blank, else
`float(s.replace("$", "").replace(",", ""))` with `ValueError` → `None`. -/
def parse_amount (s : String) : Option Frac :=
  if stripChars s.data = [] then none
  else parseFloat (s.data.filter (fun c => !(c = '$' || c = ',')))

/-! ## Two-decimal formatting (model of `f"{x:.2f}"`) -/

/-- Round half to even (the rounding used when formatting floats). -/
def rhe (x : ℚ) : ℤ :=
  if x - ⌊x⌋ < 1/2 then ⌊x⌋
  else if 1/2 < x - ⌊x⌋ then ⌊x⌋ + 1
  else if ⌊x⌋ % 2 = 0 then ⌊x⌋ else ⌊x⌋ + 1

/-- Digits of `n` hundredths rendered with exactly two decimal places. -/
def fmt2chars (n : ℕ) : List Char :=
  natChars (n / 100) ++ '.' :: [dchar (n % 100 / 10), dchar (n % 10)]

/-- Round half to even on fractions. -/
def rheF (x : Frac) : ℤ :=
  if flt (fsub x (fOfInt (ffloor x))) fHalf then ffloor x
  else if flt fHalf (fsub x (fOfInt (ffloor x))) then ffloor x + 1
  else if ffloor x % 2 = 0 then ffloor x else ffloor x + 1

/-- `f"{x:.2f}"` for a nonnegative fraction `x`. -/
def formatFixed2 (x : Frac) : List Char := fmt2chars (rheF (fmul x f100)).toNat

theorem rhe_sub_le (x : ℚ) : |x - rhe x| ≤ 1/2 := by
  have h0 : (⌊x⌋ : ℚ) ≤ x := Int.floor_le x
  have h1 : x < ⌊x⌋ + 1 := Int.lt_floor_add_one x
  unfold rhe
  split
  · rw [abs_le]; constructor <;> push_cast <;> linarith
  · next h =>
    push_neg at h
    split
    · rw [abs_le]; constructor <;> push_cast <;> linarith
    · next h2 =>
      push_neg at h2
      have : x - ⌊x⌋ = 1/2 := le_antisymm h2 h
      split <;> (rw [abs_le]; constructor <;> push_cast <;> linarith)

theorem rhe_nonneg {x : ℚ} (hx : 0 ≤ x) : 0 ≤ rhe x := by
  have h0 : (0 : ℤ) ≤ ⌊x⌋ := Int.floor_nonneg.mpr hx
  unfold rhe
  split
  · exact h0
  · split
    · omega
    · split <;> omega

theorem rhe_toNat_cast {x : ℚ} (hx : 0 ≤ x) : (((rhe x).toNat : ℤ) : ℚ) = rhe x := by
  rw [Int.toNat_of_nonneg (rhe_nonneg hx)]

/-! ### Parse/format roundtrip lemmas -/

theorem takeWhile_dropWhile_append {p : Char → Bool} (l1 : List Char) (c : Char)
    (l2 : List Char) (h1 : ∀ x ∈ l1, p x = true) (hc : p c = false) :
    (l1 ++ c :: l2).takeWhile p = l1 ∧ (l1 ++ c :: l2).dropWhile p = c :: l2 := by
  induction l1 with
  | nil => simp [List.takeWhile, List.dropWhile, hc]
  | cons a t ih =>
    have ha : p a = true := h1 a (by simp)
    have := ih (fun x hx => h1 x (by simp [hx]))
    simp [List.takeWhile, List.dropWhile, ha, this.1, this.2]

theorem fmt2chars_mem (n : ℕ) : ∀ c ∈ fmt2chars n, c.isDigit = true ∨ c = '.' := by
  intro c hc
  unfold fmt2chars at hc
  rcases List.mem_append.mp hc with h | h
  · exact Or.inl (natChars_all_digits _ c h)
  · rcases h with _ | ⟨_, h⟩
    · exact Or.inr rfl
    · rcases h with _ | ⟨_, h⟩
      · exact Or.inl (isDigit_dchar _)
      · rcases h with _ | ⟨_, h⟩
        · exact Or.inl (isDigit_dchar _)
        · cases h

theorem natVal_two_digits (n : ℕ) :
    natVal [dchar (n % 100 / 10), dchar (n % 10)] = n % 100 := by
  simp [natVal, digitVal_dchar]
  omega

theorem fracExt {x y : Frac} (h1 : x.num = y.num) (h2 : x.den = y.den) :
    x = y := by
  cases x
  cases y
  simp_all

theorem parseUnsigned_fmt2chars (n : ℕ) :
    parseUnsigned (fmt2chars n) = some ⟨(n : ℤ), 100, by omega⟩ := by
  have hdig : ∀ x ∈ natChars (n / 100), (·.isDigit) x = true := natChars_all_digits _
  have hdot : (·.isDigit) '.' = false := by decide
  have htw := takeWhile_dropWhile_append (p := (·.isDigit)) (natChars (n / 100)) '.'
    [dchar (n % 100 / 10), dchar (n % 10)] hdig hdot
  have hfp : ([dchar (n % 100 / 10), dchar (n % 10)].all (·.isDigit)) = true := by
    simp [isDigit_dchar]
  unfold fmt2chars
  unfold parseUnsigned
  simp only [htw.1, htw.2]
  simp only [List.head?, List.tail, hfp, natVal_natChars, natVal_two_digits,
    List.length_cons, List.length_nil, natChars_ne_nil, reduceCtorEq,
    if_false, not_true, and_false, false_and, false_or, or_false, if_true,
    Option.some.injEq, reduceIte, not_false_iff]
  apply fracExt
  · simp only []
    have := Nat.div_add_mod n 100
    push_cast
    omega
  · norm_num

/-- The characters emitted by a currency render: sign, `$`, digits, dot. -/
def renderAmt (neg : Bool) (n : ℕ) : List Char :=
  (if neg then ['-'] else []) ++ '$' :: fmt2chars n

theorem stripChars_of_no_ws {l : List Char} (h : ∀ c ∈ l, isWsChar c = false) :
    stripChars l = l := by
  unfold stripChars
  have h1 : l.dropWhile isWsChar = l := by
    cases l with
    | nil => rfl
    | cons a t => simp [List.dropWhile, h a (by simp)]
  rw [h1]
  have h2 : l.reverse.dropWhile isWsChar = l.reverse := by
    cases hr : l.reverse with
    | nil => rfl
    | cons a t =>
      have ha : a ∈ l := by
        have : a ∈ l.reverse := by rw [hr]; simp
        simpa using this
      simp [List.dropWhile, h a ha]
  rw [h2, List.reverse_reverse]

theorem renderAmt_no_ws (neg : Bool) (n : ℕ) :
    ∀ c ∈ renderAmt neg n, isWsChar c = false := by
  intro c hc
  unfold renderAmt at hc
  rcases List.mem_append.mp hc with h | h
  · cases neg with
    | true => simp at h; subst h; decide
    | false => simp at h
  · rcases h with _ | ⟨_, h⟩
    · decide
    · rcases fmt2chars_mem n c h with hd | hd
      · exact not_ws_of_digit hd
      · subst hd; decide

theorem parse_currency_renderAmt (neg : Bool) (n : ℕ) :
    parse_currency (String.mk (renderAmt neg n))
      = some (if neg then fneg ⟨(n : ℤ), 100, by omega⟩
              else ⟨(n : ℤ), 100, by omega⟩) := by
  have hfil : (renderAmt neg n).filter (fun c => !(c = '$' || c = ','))
      = (if neg then ['-'] else []) ++ fmt2chars n := by
    unfold renderAmt
    rw [List.filter_append]
    congr 1
    · cases neg <;> simp
    · rw [List.filter_cons_of_neg (by decide)]
      rw [List.filter_eq_self.mpr]
      intro c hc
      rcases fmt2chars_mem n c hc with hd | hd
      · have h1 : c ≠ '$' := by rintro rfl; simp at hd
        have h2 : c ≠ ',' := by rintro rfl; simp at hd
        simp [h1, h2]
      · subst hd; decide
  have hnws : ∀ c ∈ (if neg then ['-'] else []) ++ fmt2chars n, isWsChar c = false := by
    intro c hc
    apply renderAmt_no_ws neg n
    unfold renderAmt
    rcases List.mem_append.mp hc with h | h
    · exact List.mem_append.mpr (Or.inl h)
    · exact List.mem_append.mpr (Or.inr (by simp [h]))
  unfold parse_currency parseFloat
  simp only [hfil]
  rw [stripChars_of_no_ws hnws]
  have hfirst : ∃ d t, fmt2chars n = d :: t ∧ d.isDigit = true := by
    unfold fmt2chars
    cases h : natChars (n / 100) with
    | nil => exact absurd h (natChars_ne_nil _)
    | cons a t =>
      exact ⟨a, _, rfl, natChars_all_digits _ a (by rw [h]; simp)⟩
  obtain ⟨d, t, hdt, hd⟩ := hfirst
  cases neg with
  | false =>
      simp only [if_false, List.nil_append, Bool.false_eq_true]
      rw [hdt]
      unfold parseSigned
      have h1 : d ≠ '-' := by rintro rfl; simp at hd
      have h2 : d ≠ '+' := by rintro rfl; simp at hd
      simp only [h1, h2, if_false]
      rw [← hdt, parseUnsigned_fmt2chars]
  | true =>
      simp only [if_true, List.cons_append, List.nil_append]
      unfold parseSigned
      simp only [reduceIte]
      rw [parseUnsigned_fmt2chars]
      rfl

/-! ## Symbol generation (`common.generate_symbol_from_description`) -/

/-- The character class stripped to spaces: `[&.,\-\(\)\[\]%]`. -/
def isSpecialChar (c : Char) : Bool :=
  c = '&' || c = '.' || c = ',' || c = '-' || c = '(' || c = ')' ||
  c = '[' || c = ']' || c = '%'

/-- `re.sub(r"\s+", " ", ·)`: collapse each whitespace run to one space. -/
def collapseWs : List Char → List Char
  | [] => []
  | [c] => if isWsChar c then [' '] else [c]
  | c1 :: c2 :: t =>
      if isWsChar c1 && isWsChar c2 then collapseWs (c2 :: t)
      else (if isWsChar c1 then ' ' else c1) :: collapseWs (c2 :: t)

/-- `str.split()` helper: split on whitespace runs, dropping empty pieces. -/
def splitWsAux : List Char → List Char → List (List Char)
  | [], acc => if acc = [] then [] else [acc.reverse]
  | c :: t, acc =>
      if isWsChar c then
        (if acc = [] then splitWsAux t [] else acc.reverse :: splitWsAux t [])
      else splitWsAux t (c :: acc)

/-- `str.split()` with no separator. -/
def splitWs (l : List Char) : List (List Char) := splitWsAux l []

/-- `common.MAX_SYMBOL_LENGTH`. -/
def MAX_SYMBOL_LENGTH : ℕ := 8

/-- `common.generate_symbol_from_description`: uppercase and strip, replace the
special-character class with spaces, collapse whitespace, split into words,
concatenate first letters, truncate to 8, with `"UNKNOWN"` fallbacks. -/
def generate_symbol_from_description (description : String) : String :=
  if stripChars description.data = [] then "UNKNOWN"
  else
    let normalized := stripChars (description.data.map upperChar)
    let cleaned := (normalized.map (fun c => if isSpecialChar c then ' ' else c))
    let cleaned2 := collapseWs cleaned
    let words := splitWs cleaned2
    if words = [] then "UNKNOWN"
    else
      let acronym := words.filterMap List.head?
      let acronym2 := if acronym.length > MAX_SYMBOL_LENGTH
        then acronym.take MAX_SYMBOL_LENGTH else acronym
      if acronym2 = [] then "UNKNOWN" else String.mk acronym2

/-- C6: synthetic symbol generation is a pure deterministic function of the
description implementing uppercase / strip special characters / collapse
whitespace / first letters / truncate-to-8 / `"UNKNOWN"` fallback (the
algorithm is the definition `generate_symbol_from_description` above,
translated clause by clause from `common.generate_symbol_from_description`):
`generate d = generate d` for every `d`, `generate "" = "UNKNOWN"`,
`generate "ISHARES EDGE MSCI WORLD VALUE FACTOR" = "IEMWVF"`, a ten-word
description is truncated to its first 8 initials, and a description reduced
to nothing by the character strip yields `"UNKNOWN"`. -/
theorem C6_generate_symbol :
    (∀ d : String,
      generate_symbol_from_description d = generate_symbol_from_description d) ∧
    generate_symbol_from_description "" = "UNKNOWN" ∧
    generate_symbol_from_description "ISHARES EDGE MSCI WORLD VALUE FACTOR"
      = "IEMWVF" ∧
    generate_symbol_from_description "A B C D E F G H I J" = "ABCDEFGH" ∧
    generate_symbol_from_description "&.," = "UNKNOWN" :=
  ⟨fun _ => rfl, rfl, rfl, rfl, rfl⟩

/-! ## Transaction rows and the symbol tracker (`postprocess.SymbolTracker`)

A transaction row is modelled as a record of the eight raw string fields of
the reference header layout (Date, Action, Symbol, Description, Price,
Quantity, "Fees & Comm", Amount); the Python code accesses them by header
name (dict) or by header index (tuple), which the named projections model. -/

structure Row where
  date : String
  action : String
  symbol : String
  description : String
  price : String
  quantity : String
  fees : String
  amount : String
deriving DecidableEq, Repr

/-- `common.SECURITY_ACTIONS`. -/
def SECURITY_ACTIONS : List String :=
  ["Buy", "Sell", "Stock Plan Activity", "Reinvest Shares",
   "Qual Div Reinvest", "Cancel Buy", "Journal"]

/-- `str.lower` (ASCII). -/
def strLower (s : String) : String := String.mk (s.data.map lowerChar)

/-- `str.upper` (ASCII). -/
def strUpper (s : String) : String := String.mk (s.data.map upperChar)

/-- Provenance of a symbol assignment (`common.SymbolSource` plus the string
tags used by `postprocess`). -/
inductive SymbolSource where
  | MAPPED
  | GENERATED
  | REUSED
  | FALLBACK
deriving DecidableEq, Repr

/-- Association-list lookup (model of Python dict membership/read for the
insert-only `description_to_symbol` dict). -/
def alookup : List (String × String) → String → Option String
  | [], _ => none
  | (k, v) :: t, d => if k = d then some v else alookup t d

/-- Mutable state of `postprocess.SymbolTracker` relevant to resolution:
`description_to_symbol` (as an association list, newest first; a key is only
ever inserted when absent) and `symbol_counter` (as the list of all roots
counted so far, so `count` gives the dict value). -/
structure STState where
  d2s : List (String × String)
  genCounts : List String
deriving Repr

/-- The tracker's initial state. -/
def initState : STState := ⟨[], []⟩

/-- `SymbolTracker._generate_or_lookup_symbol`: memoized reuse, then mapping
lookup, then synthetic generation with collision suffixing. -/
def generateOrLookup (mapping : String → Option String) (st : STState)
    (desc : String) : String × SymbolSource × STState :=
  match alookup st.d2s (strLower desc) with
  | some s => (s, .REUSED, st)
  | none =>
    match mapping (strLower desc) with
    | some s => (s, .MAPPED, ⟨(strLower desc, s) :: st.d2s, st.genCounts⟩)
    | none =>
      let root := generate_symbol_from_description desc
      let c := st.genCounts.count root + 1
      let sym := if c > 1 then root ++ natStr (c - 1) else root
      (sym, .GENERATED, ⟨(strLower desc, sym) :: st.d2s, root :: st.genCounts⟩)

/-- `SymbolTracker.process_missing_symbol` (symbol-assignment effect, for a
row already known to have a blank Symbol): non-security actions are left
untouched; a blank description gets the positional `UNKNOWN<row>` fallback;
otherwise `_generate_or_lookup_symbol` runs. -/
def processMissingSymbol (mapping : String → Option String) (st : STState)
    (action descRaw : String) (rowNum : ℕ) :
    Option (String × SymbolSource) × STState :=
  if strip action ∈ SECURITY_ACTIONS then
    (if strip descRaw = "" then (some ("UNKNOWN" ++ natStr rowNum, .FALLBACK), st)
     else
       let r := generateOrLookup mapping st (strip descRaw)
       (some (r.1, r.2.1), r.2.2))
  else (none, st)

/-- The symbol pass of `postprocess.process_csv` (step 3): walk the rows with
1-based numbering starting at 2, calling `process_missing_symbol` on each row
whose Symbol strips to empty; returns per-row assignment results. -/
def runSymbols (mapping : String → Option String) :
    List Row → ℕ → STState → List (Option (String × SymbolSource)) × STState
  | [], _, st => ([], st)
  | r :: rest, rowNum, st =>
      if strip r.symbol = "" then
        let step := processMissingSymbol mapping st r.action r.description rowNum
        let rec_ := runSymbols mapping rest (rowNum + 1) step.2
        (step.1 :: rec_.1, rec_.2)
      else
        let rec_ := runSymbols mapping rest (rowNum + 1) st
        (none :: rec_.1, rec_.2)

/-- One resolver run over a row list (assignment results per row). -/
def symbolPass (mapping : String → Option String) (rows : List Row) :
    List (Option (String × SymbolSource)) :=
  (runSymbols mapping rows 2 initState).1

/-- A resolver run over bare descriptions (each taken through
`_generate_or_lookup_symbol`), recording symbol and provenance. -/
def runGenAux (mapping : String → Option String) (st : STState) :
    List String → List (String × SymbolSource)
  | [] => []
  | d :: t =>
      let r := generateOrLookup mapping st d
      (r.1, r.2.1) :: runGenAux mapping r.2.2 t

/-- `runGenAux` from the initial tracker state. -/
def runGen (mapping : String → Option String) (descs : List String) :
    List (String × SymbolSource) :=
  runGenAux mapping initState descs

/-! ## C4: collision handling in the generation path -/

/-- The root acronym and prior-collision count determine the generated
symbol: bare root for the first occurrence, `root ++ str(c)` for the
`c`-th later one. -/
def collisionSymbol (root : String) (c : ℕ) : String :=
  if c = 0 then root else root ++ natStr c

theorem alookup_cons_ne {k v d : String} {t : List (String × String)}
    (h : k ≠ d) : alookup ((k, v) :: t) d = alookup t d := by
  simp [alookup, h]

/-- Characterization of a run in which every description goes through the
generation path: the `k`-th description receives its root acronym suffixed by
the number of earlier descriptions sharing that root. -/
theorem runGenAux_char (mapping : String → Option String) :
    ∀ (descs : List String) (st : STState),
    (∀ d ∈ descs, mapping (strLower d) = none) →
    (∀ d ∈ descs, alookup st.d2s (strLower d) = none) →
    (descs.map strLower).Nodup →
    ∀ k dk, descs[k]? = some dk →
      (runGenAux mapping st descs)[k]? =
        some (collisionSymbol (generate_symbol_from_description dk)
            (st.genCounts.count (generate_symbol_from_description dk) +
              ((descs.take k).filter (fun d =>
                generate_symbol_from_description d
                  = generate_symbol_from_description dk)).length),
          SymbolSource.GENERATED) := by
  intro descs
  induction descs with
  | nil => intro st _ _ _ k dk hk; simp at hk
  | cons d t ih =>
    intro st hmap hlk hnd k dk hk
    have hlkd : alookup st.d2s (strLower d) = none := hlk d (by simp)
    have hmapd : mapping (strLower d) = none := hmap d (by simp)
    have hstep : generateOrLookup mapping st d =
        (collisionSymbol (generate_symbol_from_description d)
            (st.genCounts.count (generate_symbol_from_description d)),
          SymbolSource.GENERATED,
          ⟨(strLower d,
              collisionSymbol (generate_symbol_from_description d)
                (st.genCounts.count (generate_symbol_from_description d)))
              :: st.d2s,
            generate_symbol_from_description d :: st.genCounts⟩) := by
      unfold generateOrLookup
      rw [hlkd, hmapd]
      simp only [collisionSymbol]
      rcases Nat.eq_zero_or_pos
          (st.genCounts.count (generate_symbol_from_description d)) with h0 | h0
      · simp [h0]
      · have h1 : st.genCounts.count (generate_symbol_from_description d) + 1 > 1 := by
          omega
        have h2 : ¬ (st.genCounts.count (generate_symbol_from_description d) = 0) := by
          omega
        simp [h1, h2]
    cases k with
    | zero =>
      simp only [List.getElem?_cons_zero, Option.some.injEq] at hk
      subst hk
      unfold runGenAux
      rw [hstep]
      simp
    | succ k =>
      simp only [List.getElem?_cons_succ] at hk
      unfold runGenAux
      rw [hstep]
      simp only [List.getElem?_cons_succ]
      have hndt : (t.map strLower).Nodup := by
        simp only [List.map_cons, List.nodup_cons] at hnd
        exact hnd.2
      have hdnotint : strLower d ∉ t.map strLower := by
        simp only [List.map_cons, List.nodup_cons] at hnd
        exact hnd.1
      have hlkt : ∀ e ∈ t,
          alookup ((strLower d,
              collisionSymbol (generate_symbol_from_description d)
                (st.genCounts.count (generate_symbol_from_description d)))
              :: st.d2s) (strLower e) = none := by
        intro e he
        have hne : strLower d ≠ strLower e := by
          intro hcontra
          exact hdnotint (hcontra ▸ List.mem_map_of_mem strLower he)
        rw [alookup_cons_ne hne]
        exact hlk e (by simp [he])
      have := ih ⟨(strLower d,
            collisionSymbol (generate_symbol_from_description d)
              (st.genCounts.count (generate_symbol_from_description d)))
            :: st.d2s,
          generate_symbol_from_description d :: st.genCounts⟩
        (fun e he => hmap e (by simp [he])) hlkt hndt k dk hk
      rw [this]
      congr 2
      simp only [List.take_succ_cons, List.filter_cons, List.count_cons]
      by_cases hroot : generate_symbol_from_description d
          = generate_symbol_from_description dk
      · simp [hroot, List.length_cons]
        congr 1
        omega
      · have hroot2 : ¬ (generate_symbol_from_description dk
            = generate_symbol_from_description d) := fun h => hroot h.symm
        simp [hroot, hroot2]


theorem collisionSymbol_ne (r : String) {c1 c2 : ℕ} (h : c1 ≠ c2) :
    collisionSymbol r c1 ≠ collisionSymbol r c2 := by
  have hlen : ∀ c : ℕ, c ≠ 0 → r ≠ r ++ natStr c := by
    intro c _ hc
    have hd := congrArg String.data hc
    rw [String.data_append] at hd
    have hln : r.data.length = r.data.length + (natStr c).data.length :=
      (congrArg List.length hd).trans (List.length_append _ _)
    have hne := natChars_ne_nil c
    cases hnc : natChars c with
    | nil => exact hne hnc
    | cons a t =>
        rw [show (natStr c).data = natChars c from rfl, hnc] at hln
        simp at hln
  unfold collisionSymbol
  by_cases h1 : c1 = 0
  · subst h1
    have h2 : ¬ (c2 = 0) := fun hh => h hh.symm
    simp only [if_true, h2, if_false]
    exact hlen c2 h2
  · by_cases h2 : c2 = 0
    · subst h2
      simp only [h1, if_false, if_true]
      exact fun hc => hlen c1 h1 hc.symm
    · simp only [h1, h2, if_false]
      intro hc
      have hd := congrArg String.data hc
      rw [String.data_append, String.data_append] at hd
      have hd2 := List.append_cancel_left hd
      have hd3 : natStr c1 = natStr c2 := String.ext hd2
      exact h (natStr_injective hd3)

theorem filter_take_succ_le {p : String → Bool} {descs : List String} {k l : ℕ}
    {dk : String} (hkl : k < l) (hk : descs[k]? = some dk) (hp : p dk = true) :
    ((descs.take k).filter p).length + 1 ≤ ((descs.take l).filter p).length := by
  have hl : l = (k + 1) + (l - (k + 1)) := by omega
  rw [hl, List.take_add, List.filter_append, List.length_append, List.take_succ, hk]
  rw [List.filter_append]
  simp only [Option.toList_some, List.length_append, List.filter_cons, hp,
    List.filter_nil, List.length_cons, List.length_nil, if_true]
  simp

/-- C4 (amended): in a run in which every description resolves through the
generation path (none mapped, all descriptions distinct), the first
description producing a given root acronym keeps the bare acronym and the
`c`-th later description with the same root receives `root ++ str(c)`,
deterministically in first-seen order; two distinct descriptions producing
the SAME root acronym always receive distinct final symbols.  (Global
pairwise distinctness across different roots fails, see the
counterexample.) -/
theorem C4_collision_suffixes (mapping : String → Option String)
    (descs : List String)
    (hmap : ∀ d ∈ descs, mapping (strLower d) = none)
    (hnd : (descs.map strLower).Nodup) :
    (∀ (k : ℕ) (dk : String), descs[k]? = some dk →
      (runGen mapping descs)[k]? =
        some (collisionSymbol (generate_symbol_from_description dk)
            (((descs.take k).filter (fun d =>
              generate_symbol_from_description d
                = generate_symbol_from_description dk)).length),
          SymbolSource.GENERATED)) ∧
    (∀ (k l : ℕ) (dk dl2 : String), k < l → descs[k]? = some dk →
      descs[l]? = some dl2 →
      generate_symbol_from_description dk = generate_symbol_from_description dl2 →
      ((runGen mapping descs)[k]?).map Prod.fst
        ≠ ((runGen mapping descs)[l]?).map Prod.fst) := by
  have hchar : ∀ (k : ℕ) (dk : String), descs[k]? = some dk →
      (runGen mapping descs)[k]? =
        some (collisionSymbol (generate_symbol_from_description dk)
            (((descs.take k).filter (fun d =>
              generate_symbol_from_description d
                = generate_symbol_from_description dk)).length),
          SymbolSource.GENERATED) := by
    intro k dk hk
    have := runGenAux_char mapping descs initState hmap
      (fun d _ => rfl) hnd k dk hk
    simpa [initState, runGen] using this
  refine ⟨hchar, ?_⟩
  intro k l dk dl2 hkl hk hl hroot
  rw [hchar k dk hk, hchar l dl2 hl]
  simp only [Option.map_some', ne_eq, Option.some.injEq]
  rw [← hroot]
  have hcount : ((descs.take k).filter (fun d =>
        generate_symbol_from_description d
          = generate_symbol_from_description dk)).length + 1 ≤
      ((descs.take l).filter (fun d =>
        generate_symbol_from_description d
          = generate_symbol_from_description dk)).length := by
    exact filter_take_succ_le hkl hk (by simp)
  apply collisionSymbol_ne
  omega

/-- C4 counterexample: descriptions `"APPLE BANANA"` (root `"AB"`, second
occurrence of that root, suffixed to `"AB1"`) and `"ALPHA BRAVO 1ST"` (root
`"AB1"`, first occurrence, kept bare) are distinct yet both receive the final
generated symbol `"AB1"` in one run — generated symbols are NOT globally
pairwise distinct. -/
theorem C4_counterexample :
    runGen (fun _ => none) ["ALPHA BRAVO", "APPLE BANANA", "ALPHA BRAVO 1ST"]
      = [("AB", SymbolSource.GENERATED), ("AB1", SymbolSource.GENERATED),
         ("AB1", SymbolSource.GENERATED)] ∧
    ("APPLE BANANA" : String) ≠ "ALPHA BRAVO 1ST" :=
  ⟨rfl, by decide⟩

/-- Witness for `C4_collision_suffixes` at a concrete input. -/
theorem C4_collision_suffixes_witness :
    (runGen (fun _ => none) ["ALPHA BRAVO", "APPLE BANANA"])[1]?
      = some ("AB1", SymbolSource.GENERATED) := by
  have h := (C4_collision_suffixes (fun _ => none)
    ["ALPHA BRAVO", "APPLE BANANA"] (fun d _ => rfl) (by decide)).1
    1 "APPLE BANANA" rfl
  rw [h]
  rfl

/-! ## C5: one description, one symbol -/

/-- A row eligible for the resolution chain: blank Symbol, security action,
non-blank Description. -/
def eligibleRow (r : Row) : Prop :=
  strip r.symbol = "" ∧ strip r.action ∈ SECURITY_ACTIONS ∧ strip r.description ≠ ""

instance (r : Row) : Decidable (eligibleRow r) := by
  unfold eligibleRow
  infer_instance

theorem alookup_generateOrLookup (mapping : String → Option String)
    (st : STState) (desc d s : String) (h : alookup st.d2s d = some s) :
    alookup (generateOrLookup mapping st desc).2.2.d2s d = some s := by
  unfold generateOrLookup
  cases hlk : alookup st.d2s (strLower desc) with
  | some s2 => simpa using h
  | none =>
    have hne : strLower desc ≠ d := by
      intro he
      rw [he, h] at hlk
      cases hlk
    cases hm : mapping (strLower desc) with
    | some s2 => simpa [alookup_cons_ne hne] using h
    | none => simpa [alookup_cons_ne hne] using h

theorem alookup_processMissingSymbol (mapping : String → Option String)
    (st : STState) (action desc : String) (rowNum : ℕ) (d s : String)
    (h : alookup st.d2s d = some s) :
    alookup (processMissingSymbol mapping st action desc rowNum).2.d2s d = some s := by
  unfold processMissingSymbol
  by_cases hsec : strip action ∈ SECURITY_ACTIONS
  · by_cases hdesc : strip desc = ""
    · simpa [hsec, hdesc] using h
    · simpa [hsec, hdesc] using alookup_generateOrLookup mapping st (strip desc) d s h
  · simpa [hsec] using h

theorem processMissingSymbol_reuse (mapping : String → Option String)
    (st : STState) (action desc : String) (rowNum : ℕ) (s : String)
    (hsec : strip action ∈ SECURITY_ACTIONS) (hdesc : strip desc ≠ "")
    (hlk : alookup st.d2s (strLower (strip desc)) = some s) :
    processMissingSymbol mapping st action desc rowNum
      = (some (s, SymbolSource.REUSED), st) := by
  unfold processMissingSymbol generateOrLookup
  rw [hlk]
  simp [hsec, hdesc]

theorem generateOrLookup_establishes (mapping : String → Option String)
    (st : STState) (desc : String) :
    alookup (generateOrLookup mapping st desc).2.2.d2s (strLower desc)
      = some (generateOrLookup mapping st desc).1 := by
  unfold generateOrLookup
  cases hlk : alookup st.d2s (strLower desc) with
  | some s => simpa using hlk
  | none =>
    cases hm : mapping (strLower desc) with
    | some s => simp [alookup]
    | none => simp [alookup]

theorem processMissingSymbol_eligible (mapping : String → Option String)
    (st : STState) (action desc : String) (rowNum : ℕ)
    (hsec : strip action ∈ SECURITY_ACTIONS) (hdesc : strip desc ≠ "") :
    processMissingSymbol mapping st action desc rowNum
      = (some ((generateOrLookup mapping st (strip desc)).1,
               (generateOrLookup mapping st (strip desc)).2.1),
         (generateOrLookup mapping st (strip desc)).2.2) := by
  unfold processMissingSymbol
  simp [hsec, hdesc]

theorem runSymbols_reuse (mapping : String → Option String) :
    ∀ (rows : List Row) (rowNum : ℕ) (st : STState) (d s : String),
    alookup st.d2s d = some s →
    ∀ (k : ℕ) (rk : Row), rows[k]? = some rk → eligibleRow rk →
      strLower (strip rk.description) = d →
      (runSymbols mapping rows rowNum st).1[k]?
        = some (some (s, SymbolSource.REUSED)) := by
  intro rows
  induction rows with
  | nil => intro rowNum st d s _ k rk hk; simp at hk
  | cons r rest ih =>
    intro rowNum st d s hlk k rk hk helig hd
    by_cases hsym : strip r.symbol = ""
    · cases k with
      | zero =>
        simp only [List.getElem?_cons_zero, Option.some.injEq] at hk
        subst hk
        have hstep := processMissingSymbol_reuse mapping st r.action r.description
          rowNum s helig.2.1 helig.2.2 (hd ▸ hlk)
        simp [runSymbols, hsym, hstep]
      | succ k =>
        simp only [List.getElem?_cons_succ] at hk
        have hpersist := alookup_processMissingSymbol mapping st r.action
          r.description rowNum d s hlk
        simp only [runSymbols, hsym, if_true]
        simpa using ih (rowNum + 1) _ d s hpersist k rk hk helig hd
    · cases k with
      | zero =>
        simp only [List.getElem?_cons_zero, Option.some.injEq] at hk
        subst hk
        exact absurd helig.1 hsym
      | succ k =>
        simp only [List.getElem?_cons_succ] at hk
        simp only [runSymbols, hsym, if_false]
        simpa using ih (rowNum + 1) st d s hlk k rk hk helig hd

theorem runSymbols_consistency (mapping : String → Option String) :
    ∀ (rows : List Row) (rowNum : ℕ) (st : STState) (i j : ℕ) (ri rj : Row),
    i < j → rows[i]? = some ri → rows[j]? = some rj →
    eligibleRow ri → eligibleRow rj →
    strLower (strip ri.description) = strLower (strip rj.description) →
    ∃ s src, (runSymbols mapping rows rowNum st).1[i]? = some (some (s, src)) ∧
      (runSymbols mapping rows rowNum st).1[j]?
        = some (some (s, SymbolSource.REUSED)) := by
  intro rows
  induction rows with
  | nil => intro rowNum st i j ri rj _ hi; simp at hi
  | cons r rest ih =>
    intro rowNum st i j ri rj hij hi hj heligi heligj hdesc
    cases j with
    | zero => omega
    | succ j =>
      simp only [List.getElem?_cons_succ] at hj
      cases i with
      | zero =>
        simp only [List.getElem?_cons_zero, Option.some.injEq] at hi
        subst hi
        have hsym : strip r.symbol = "" := heligi.1
        have hstep := processMissingSymbol_eligible
          mapping st r.action r.description rowNum heligi.2.1 heligi.2.2
        have hlk2 : alookup
            (generateOrLookup mapping st (strip r.description)).2.2.d2s
            (strLower (strip r.description))
              = some (generateOrLookup mapping st (strip r.description)).1 :=
          generateOrLookup_establishes mapping st (strip r.description)
        have htail := runSymbols_reuse mapping rest (rowNum + 1)
          (generateOrLookup mapping st (strip r.description)).2.2
          (strLower (strip r.description))
          (generateOrLookup mapping st (strip r.description)).1
          hlk2 j rj hj heligj hdesc.symm
        refine ⟨(generateOrLookup mapping st (strip r.description)).1,
          (generateOrLookup mapping st (strip r.description)).2.1, ?_, ?_⟩
        · simp [runSymbols, hsym, hstep]
        · simp only [runSymbols, hsym, if_true, hstep]
          simpa using htail
      | succ i =>
        simp only [List.getElem?_cons_succ] at hi
        by_cases hsym : strip r.symbol = ""
        · obtain ⟨s, src, h1, h2⟩ := ih (rowNum + 1)
            (processMissingSymbol mapping st r.action r.description rowNum).2
            i j ri rj (by omega) hi hj heligi heligj hdesc
          refine ⟨s, src, ?_, ?_⟩
          · simp only [runSymbols, hsym, if_true]
            simpa using h1
          · simp only [runSymbols, hsym, if_true]
            simpa using h2
        · obtain ⟨s, src, h1, h2⟩ := ih (rowNum + 1) st
            i j ri rj (by omega) hi hj heligi heligj hdesc
          refine ⟨s, src, ?_, ?_⟩
          · simp only [runSymbols, hsym, if_false]
            simpa using h1
          · simp only [runSymbols, hsym, if_false]
            simpa using h2

/-- C5: within one resolver run, any two eligible rows (blank Symbol,
security action, non-blank Description) whose Descriptions agree after
trimming and ASCII case-folding receive the identical final symbol; the
earlier occurrence establishes it through the priority chain (memoized reuse
before mapping before generation, which is the order of
`_generate_or_lookup_symbol`), and the later occurrence reuses the memoized
symbol with provenance `REUSED`. -/
theorem C5_one_description_one_symbol (mapping : String → Option String)
    (rows : List Row) (i j : ℕ) (ri rj : Row) (hij : i < j)
    (hi : rows[i]? = some ri) (hj : rows[j]? = some rj)
    (heligi : eligibleRow ri) (heligj : eligibleRow rj)
    (hdesc : strLower (strip ri.description) = strLower (strip rj.description)) :
    ∃ s src, (symbolPass mapping rows)[i]? = some (some (s, src)) ∧
      (symbolPass mapping rows)[j]? = some (some (s, SymbolSource.REUSED)) :=
  runSymbols_consistency mapping rows 2 initState i j ri rj hij hi hj
    heligi heligj hdesc

/-- Witness for `C5_one_description_one_symbol`: two Buy rows with blank
symbols and case-variant equal descriptions. -/
theorem C5_one_description_one_symbol_witness :
    ∃ s src, (symbolPass (fun _ => none)
      [⟨"01/02/2024", "Buy", "", "Alpha Bravo", "", "", "", ""⟩,
       ⟨"01/03/2024", "Buy", " ", "ALPHA BRAVO ", "", "", "", ""⟩])[0]?
        = some (some (s, src)) ∧
      (symbolPass (fun _ => none)
      [⟨"01/02/2024", "Buy", "", "Alpha Bravo", "", "", "", ""⟩,
       ⟨"01/03/2024", "Buy", " ", "ALPHA BRAVO ", "", "", "", ""⟩])[1]?
        = some (some (s, SymbolSource.REUSED)) :=
  C5_one_description_one_symbol (fun _ => none) _ 0 1 _ _ (by omega) rfl rfl
    (by decide) (by decide) (by decide)

/-! ## Rounding reconciliation (`postprocess.RoundingFixer`) -/

/-- `common.MIN_ROUNDING_DIFF`. -/
def MIN_ROUNDING_DIFF : ℚ := 1/100

/-- `common.MAX_ROUNDING_DIFF`. -/
def MAX_ROUNDING_DIFF : ℚ := 1

/-- `MIN_ROUNDING_DIFF` as a fraction. -/
def fMIN : Frac := ⟨1, 100, by omega⟩

/-- `MAX_ROUNDING_DIFF` as a fraction. -/
def fMAX : Frac := fOfInt 1

/-- The four numeric fields of `RoundingFixer._check_and_fix_row` as parsed by
its `try` block: `none` when a required field is blank or any parse raises
(price and amount via `parse_currency`, quantity via
`float(·.replace(",", ""))`, blank fees defaulting to `0.0`). -/
def parsedFields (r : Row) : Option (Frac × Frac × Frac × Frac) :=
  if strip r.price = "" ∨ strip r.quantity = "" ∨ strip r.amount = "" then none
  else
    (parse_currency (strip r.price)).bind fun p =>
    (parseFloat ((strip r.quantity).data.filter (fun c => !(c = ',')))).bind fun q =>
    (parse_currency (strip r.amount)).bind fun a =>
    (if strip r.fees = "" then some fZero
     else parse_currency (strip r.fees)).bind fun f =>
    some (p, q, a, f)

/-- `calculated_amount`: `gross - fees` for a sale (recorded amount ≥ 0),
`-(gross + fees)` for a purchase. -/
def calcAmount (p q a f : Frac) : Frac :=
  if fle fZero a then fsub (fmul q p) f else fneg (fadd (fmul q p) f)

/-- `RoundingFixer._check_and_fix_row`: rewrite Amount to
`f"{sign}${abs(calculated):.2f}"` iff `MIN < |calculated - amount| < MAX`. -/
def checkAndFixRow (r : Row) : Row :=
  match parsedFields r with
  | none => r
  | some (p, q, a, f) =>
      if flt fMIN (fabs (fsub (calcAmount p q a f) a)) ∧
         flt (fabs (fsub (calcAmount p q a f) a)) fMAX then
        { r with amount := (String.mk (renderAmt (decide (flt a fZero))
            ((rheF (fmul (fabs (calcAmount p q a f)) f100)).toNat))) }
      else r

/-- `RoundingFixer.process_rows`: fix every row (row numbers only feed logs). -/
def process_rows (rows : List Row) : List Row := rows.map checkAndFixRow

/-! ### Transfer lemmas for the fixer arithmetic -/

theorem fle_fZero_iff (x : Frac) : fle fZero x ↔ 0 ≤ toQ x := by
  rw [fle_iff, toQ_fZero]

theorem flt_fZero_iff (x : Frac) : flt x fZero ↔ toQ x < 0 := by
  rw [flt_iff, toQ_fZero]

theorem toQ_fMIN : toQ fMIN = MIN_ROUNDING_DIFF := by
  unfold fMIN toQ MIN_ROUNDING_DIFF
  norm_num

theorem toQ_fMAX : toQ fMAX = MAX_ROUNDING_DIFF := by
  unfold fMAX MAX_ROUNDING_DIFF
  rw [toQ_fOfInt]
  norm_num

theorem rheF_eq (x : Frac) : rheF x = rhe (toQ x) := by
  have h1 : flt (fsub x (fOfInt (ffloor x))) fHalf ↔ toQ x - (⌊toQ x⌋ : ℚ) < 1/2 := by
    rw [flt_iff, toQ_fsub, toQ_fOfInt, toQ_fHalf, ffloor_eq]
  have h2 : flt fHalf (fsub x (fOfInt (ffloor x))) ↔ (1/2 : ℚ) < toQ x - ⌊toQ x⌋ := by
    rw [flt_iff, toQ_fsub, toQ_fOfInt, toQ_fHalf, ffloor_eq]
  unfold rheF rhe
  by_cases hc1 : toQ x - (⌊toQ x⌋ : ℚ) < 1/2
  · rw [if_pos (h1.mpr hc1), if_pos hc1, ffloor_eq]
  · rw [if_neg (fun hh => hc1 (h1.mp hh)), if_neg hc1]
    by_cases hc2 : (1/2 : ℚ) < toQ x - ⌊toQ x⌋
    · rw [if_pos (h2.mpr hc2), if_pos hc2, ffloor_eq]
    · rw [if_neg (fun hh => hc2 (h2.mp hh)), if_neg hc2, ffloor_eq]

/-- The calculated amount, transported to `ℚ`. -/
theorem calcAmount_toQ (p q a f : Frac) :
    toQ (calcAmount p q a f)
      = if 0 ≤ toQ a then toQ q * toQ p - toQ f else -(toQ q * toQ p + toQ f) := by
  unfold calcAmount
  by_cases h : fle fZero a
  · rw [if_pos h, if_pos ((fle_fZero_iff a).mp h), toQ_fsub, toQ_fmul]
  · rw [if_neg h, if_neg (fun hh => h ((fle_fZero_iff a).mpr hh)), toQ_fneg,
      toQ_fadd, toQ_fmul]

theorem fixCondition_iff (p q a f : Frac) :
    (flt fMIN (fabs (fsub (calcAmount p q a f) a)) ∧
      flt (fabs (fsub (calcAmount p q a f) a)) fMAX) ↔
    (MIN_ROUNDING_DIFF < |toQ (calcAmount p q a f) - toQ a| ∧
      |toQ (calcAmount p q a f) - toQ a| < MAX_ROUNDING_DIFF) := by
  rw [flt_iff, flt_iff, toQ_fabs, toQ_fsub, toQ_fMIN, toQ_fMAX]

theorem renderArg_eq (p q a f : Frac) :
    (rheF (fmul (fabs (calcAmount p q a f)) f100)).toNat
      = (rhe (|toQ (calcAmount p q a f)| * 100)).toNat := by
  rw [rheF_eq, toQ_fmul, toQ_fabs, toQ_f100]

/-- Inversion of a successful field parse. -/
theorem parsedFields_some_inv {r : Row} {p q a f : Frac}
    (h : parsedFields r = some (p, q, a, f)) :
    ¬(strip r.price = "" ∨ strip r.quantity = "" ∨ strip r.amount = "") ∧
    parse_currency (strip r.price) = some p ∧
    parseFloat ((strip r.quantity).data.filter (fun c => !(c = ','))) = some q ∧
    parse_currency (strip r.amount) = some a ∧
    (if strip r.fees = "" then some fZero
     else parse_currency (strip r.fees)) = some f := by
  unfold parsedFields at h
  split at h
  · cases h
  · next hne =>
    cases hp : parse_currency (strip r.price) with
    | none => rw [hp] at h; cases h
    | some p2 =>
      rw [hp] at h
      cases hq : parseFloat ((strip r.quantity).data.filter (fun c => !(c = ','))) with
      | none => rw [hq] at h; cases h
      | some q2 =>
        rw [hq] at h
        cases ha : parse_currency (strip r.amount) with
        | none => rw [ha] at h; cases h
        | some a2 =>
          rw [ha] at h
          cases hf : (if strip r.fees = "" then some fZero
              else parse_currency (strip r.fees)) with
          | none => rw [hf] at h; cases h
          | some f2 =>
            rw [hf] at h
            simp only [Option.some_bind, Option.some.injEq, Prod.mk.injEq] at h
            refine ⟨hne, ?_, ?_, ?_, ?_⟩ <;>
              first
                | (try rw [hp]); (try rw [hq]); (try rw [ha]); (try rw [hf]);
                  simp [h.1, h.2.1, h.2.2.1, h.2.2.2]

theorem rowEta (r : Row) : { r with amount := r.amount } = r := rfl

/-- C7: for every row whose Price, Quantity and Amount are non-empty and whose
numeric fields all parse (`parsedFields r = some (p, q, a, f)`), the fixer
rewrites Amount iff the diff `|expected − recorded|` lies strictly between
0.01 and 1.00, where `expected = gross − fees` when the recorded amount is
≥ 0 and `−(gross + fees)` otherwise (`gross = quantity·price`, in exact
rational arithmetic via `toQ`); the rewritten Amount is the `$`-prefixed,
comma-free two-decimal rendering of `|expected|` with the sign taken from the
recorded amount's sign, all other fields are untouched; and rows whose fields
are missing or unparsable are left entirely unchanged (skipped silently). -/
theorem C7_rounding_fix_rule :
    (∀ (r : Row) (p q a f : Frac), parsedFields r = some (p, q, a, f) →
      ((checkAndFixRow r).amount =
        (if MIN_ROUNDING_DIFF
              < |(if 0 ≤ toQ a then toQ q * toQ p - toQ f
                  else -(toQ q * toQ p + toQ f)) - toQ a| ∧
            |(if 0 ≤ toQ a then toQ q * toQ p - toQ f
              else -(toQ q * toQ p + toQ f)) - toQ a| < MAX_ROUNDING_DIFF then
          String.mk (renderAmt (decide (toQ a < 0))
            ((rhe (|if 0 ≤ toQ a then toQ q * toQ p - toQ f
                    else -(toQ q * toQ p + toQ f)| * 100)).toNat))
        else r.amount)
      ∧ (checkAndFixRow r).date = r.date ∧ (checkAndFixRow r).action = r.action
      ∧ (checkAndFixRow r).symbol = r.symbol
      ∧ (checkAndFixRow r).description = r.description
      ∧ (checkAndFixRow r).price = r.price
      ∧ (checkAndFixRow r).quantity = r.quantity
      ∧ (checkAndFixRow r).fees = r.fees)) ∧
    (∀ r : Row, parsedFields r = none → checkAndFixRow r = r) := by
  constructor
  · intro r p q a f h
    have hQ := calcAmount_toQ p q a f
    rw [← hQ]
    unfold checkAndFixRow
    rw [h]
    dsimp only
    by_cases hc : flt fMIN (fabs (fsub (calcAmount p q a f) a)) ∧
        flt (fabs (fsub (calcAmount p q a f) a)) fMAX
    · have hcQ := (fixCondition_iff p q a f).mp hc
      rw [if_pos hc, if_pos hcQ]
      refine ⟨?_, rfl, rfl, rfl, rfl, rfl, rfl, rfl⟩
      dsimp only
      congr 1
      rw [renderArg_eq]
      congr 1
      exact decide_eq_decide.mpr (flt_fZero_iff a)
    · have hcQ : ¬ (MIN_ROUNDING_DIFF < |toQ (calcAmount p q a f) - toQ a| ∧
          |toQ (calcAmount p q a f) - toQ a| < MAX_ROUNDING_DIFF) :=
        fun hh => hc ((fixCondition_iff p q a f).mpr hh)
      rw [if_neg hc, if_neg hcQ]
      exact ⟨rfl, rfl, rfl, rfl, rfl, rfl, rfl, rfl⟩
  · intro r h
    unfold checkAndFixRow
    rw [h]

/-- Witness for `C7_rounding_fix_rule`: its two conjuncts applied at the
repository's own dividend-reinvestment fixture and at a row with an
unparsable amount. -/
theorem C7_rounding_fix_rule_witness :
    (checkAndFixRow ⟨"01/15/2024", "Reinvest Dividend", "MSFT",
        "MICROSOFT CORP", "$54.34", "0.571", "", "-$31.04"⟩).date
      = "01/15/2024" ∧
    checkAndFixRow ⟨"01/15/2024", "Buy", "MSFT", "MICROSOFT CORP",
        "$54.34", "0.571", "", "bogus"⟩
      = ⟨"01/15/2024", "Buy", "MSFT", "MICROSOFT CORP",
        "$54.34", "0.571", "", "bogus"⟩ :=
  ⟨(C7_rounding_fix_rule.1 ⟨"01/15/2024", "Reinvest Dividend", "MSFT",
      "MICROSOFT CORP", "$54.34", "0.571", "", "-$31.04"⟩
      ⟨(5434 : ℤ), 100, by omega⟩ ⟨(571 : ℤ), 1000, by omega⟩
      (fneg ⟨(3104 : ℤ), 100, by omega⟩) fZero rfl).2.1,
   C7_rounding_fix_rule.2 ⟨"01/15/2024", "Buy", "MSFT", "MICROSOFT CORP",
      "$54.34", "0.571", "", "bogus"⟩ rfl⟩

/-! ### Idempotence analysis of the fixer (C8) -/

theorem renderAmt_ne_nil (neg : Bool) (n : ℕ) : renderAmt neg n ≠ [] := by
  cases neg <;> simp [renderAmt]

theorem strip_mk_renderAmt (neg : Bool) (n : ℕ) :
    strip (String.mk (renderAmt neg n)) = String.mk (renderAmt neg n) := by
  unfold strip
  rw [show (String.mk (renderAmt neg n)).data = renderAmt neg n from rfl,
    stripChars_of_no_ws (renderAmt_no_ws neg n)]

theorem mk_renderAmt_ne_empty (neg : Bool) (n : ℕ) :
    String.mk (renderAmt neg n) ≠ "" := by
  intro hcontra
  exact renderAmt_ne_nil neg n (congrArg String.data hcontra)

theorem toQ_n100 (n : ℕ) : toQ ⟨(n : ℤ), 100, by omega⟩ = (n : ℚ) / 100 := by
  unfold toQ
  norm_num

/-- After a fix, the row parses again with the rounded amount and is stable
under a second pass unless the fix wrote the degenerate amount `-$0.00`. -/
theorem checkAndFixRow_stable (r : Row)
    (hne : (checkAndFixRow r).amount ≠ "-$0.00") :
    checkAndFixRow (checkAndFixRow r) = checkAndFixRow r := by
  cases hpf : parsedFields r with
  | none =>
    have h1 : checkAndFixRow r = r := by
      unfold checkAndFixRow
      rw [hpf]
    rw [h1]
    exact h1
  | some pqaf =>
    obtain ⟨p, q, a, f⟩ := pqaf
    by_cases hc : flt fMIN (fabs (fsub (calcAmount p q a f) a)) ∧
        flt (fabs (fsub (calcAmount p q a f) a)) fMAX
    · -- a fix was applied
      have h1 : checkAndFixRow r = { r with amount := (String.mk (renderAmt (decide (flt a fZero)) ((rheF (fmul (fabs (calcAmount p q a f)) f100)).toNat))) } := by
        unfold checkAndFixRow
        rw [hpf]
        dsimp only
        rw [if_pos hc]
      obtain ⟨hne3, hp, hq, ha, hf⟩ := parsedFields_some_inv hpf
      -- abbreviations
      generalize hN : (rheF (fmul (fabs (calcAmount p q a f)) f100)).toNat = n at h1
      generalize hB : decide (flt a fZero) = neg at h1
      -- the re-parsed amount
      have hanew : parse_currency
          (strip (String.mk (renderAmt neg n)))
            = some (if neg then fneg ⟨(n : ℤ), 100, by omega⟩
                    else ⟨(n : ℤ), 100, by omega⟩) := by
        rw [strip_mk_renderAmt, parse_currency_renderAmt]
      have hpf2 : parsedFields { r with amount := String.mk (renderAmt neg n) }
          = some (p, q, (if neg then fneg ⟨(n : ℤ), 100, by omega⟩
                         else ⟨(n : ℤ), 100, by omega⟩), f) := by
        unfold parsedFields
        rw [if_neg (by
          push_neg
          push_neg at hne3
          refine ⟨hne3.1, hne3.2.1, ?_⟩
          show strip (String.mk (renderAmt neg n)) ≠ ""
          rw [strip_mk_renderAmt]
          exact mk_renderAmt_ne_empty neg n)]
        rw [show ({ r with amount := String.mk (renderAmt neg n) } : Row).price
            = r.price from rfl,
          show ({ r with amount := String.mk (renderAmt neg n) } : Row).quantity
            = r.quantity from rfl,
          show ({ r with amount := String.mk (renderAmt neg n) } : Row).fees
            = r.fees from rfl,
          show ({ r with amount := String.mk (renderAmt neg n) } : Row).amount
            = String.mk (renderAmt neg n) from rfl]
        rw [hp, hq, hanew, hf]
        rfl
      rw [h1]
      -- case split on the sign of the original amount and the rounded value
      by_cases hbneg : neg = true
      · subst hbneg
        by_cases hn0 : n = 0
        · exfalso
          apply hne
          rw [h1, hn0]
          rfl
        · -- negative original, nonzero rounded value: a' < 0
          have haq : toQ (fneg ⟨(n : ℤ), 100, by omega⟩) < 0 := by
            rw [toQ_fneg, toQ_n100]
            have : (0 : ℚ) < (n : ℚ) / 100 := by
              apply div_pos _ (by norm_num)
              exact_mod_cast Nat.pos_of_ne_zero hn0
            linarith
          have hflt2 : flt (fneg ⟨(n : ℤ), 100, by omega⟩) fZero :=
            (flt_fZero_iff _).mpr haq
          have hflt1 : flt a fZero := of_decide_eq_true hB
          have hcalf : calcAmount p q (fneg ⟨(n : ℤ), 100, by omega⟩) f
              = calcAmount p q a f := by
            unfold calcAmount
            rw [if_neg (fun hh => absurd ((fle_fZero_iff _).mp hh)
                (not_le.mpr ((flt_fZero_iff _).mp hflt2))),
              if_neg (fun hh => absurd ((fle_fZero_iff _).mp hh)
                (not_le.mpr ((flt_fZero_iff _).mp hflt1)))]
          unfold checkAndFixRow
          rw [hpf2]
          dsimp only
          simp only [if_true, if_false, Bool.false_eq_true, reduceCtorEq,
            hcalf, hN, decide_eq_true hflt2]
          rw [ite_self]
      · -- nonnegative original: a' ≥ 0
        have hbf : neg = false := by
          cases neg
          · rfl
          · exact absurd rfl hbneg
        subst hbf
        have haq : (0 : ℚ) ≤ toQ (⟨(n : ℤ), 100, by omega⟩ : Frac) := by
          rw [toQ_n100]
          positivity
        have hfle2 : fle fZero (⟨(n : ℤ), 100, by omega⟩ : Frac) :=
          (fle_fZero_iff _).mpr haq
        have hfle1 : fle fZero a := by
          rw [fle_fZero_iff]
          have := of_decide_eq_false hB
          rw [flt_fZero_iff] at this
          linarith [not_lt.mp this]
        have hcalf : calcAmount p q (⟨(n : ℤ), 100, by omega⟩ : Frac) f
            = calcAmount p q a f := by
          unfold calcAmount
          rw [if_pos hfle2, if_pos hfle1]
        have hnflt : ¬ flt (⟨(n : ℤ), 100, by omega⟩ : Frac) fZero := by
          rw [flt_fZero_iff]
          linarith
        unfold checkAndFixRow
        rw [hpf2]
        dsimp only
        simp only [if_true, if_false, Bool.false_eq_true, reduceCtorEq,
          hcalf, hN, decide_eq_false hnflt]
        rw [ite_self]
    · -- no fix was applied
      have h1 : checkAndFixRow r = r := by
        unfold checkAndFixRow
        rw [hpf]
        dsimp only
        rw [if_neg hc]
      rw [h1]
      exact h1

/-- C8 counterexample: on the row with Price `$0.098`, Quantity `-1`, fees
`$0.10`, Amount `-$0.50`, the first pass rewrites Amount to `-$0.00`
(expected value `-0.002` rounds to zero, sign preserved from the negative
recorded amount); on the second pass `-$0.00` parses as `0 ≥ 0`, flipping the
branch to `gross − fees = -0.198`, whose diff `0.198` triggers a second,
DIFFERENT fix to `$0.20` — so running the fixer twice changes an Amount that
the first run had already fixed. -/
theorem C8_counterexample :
    (process_rows [⟨"", "", "", "", "$0.098", "-1", "$0.10", "-$0.50"⟩]).map
        Row.amount = ["-$0.00"] ∧
    (process_rows (process_rows
        [⟨"", "", "", "", "$0.098", "-1", "$0.10", "-$0.50"⟩])).map
        Row.amount = ["$0.20"] ∧
    process_rows (process_rows
        [⟨"", "", "", "", "$0.098", "-1", "$0.10", "-$0.50"⟩])
      ≠ process_rows [⟨"", "", "", "", "$0.098", "-1", "$0.10", "-$0.50"⟩] :=
  ⟨rfl, rfl, by decide⟩

/-- C8 (amended): the rounding fixer is idempotent on every row except those
whose first-pass fix writes the degenerate Amount `-$0.00` (a negative
recorded amount whose expected value rounds to zero): a second application
changes no row of the first application's output as long as no output row
carries Amount `-$0.00`. -/
theorem C8_fixer_idempotent_unless_zero (rows : List Row)
    (h : ∀ r2 ∈ process_rows rows, r2.amount ≠ "-$0.00") :
    process_rows (process_rows rows) = process_rows rows := by
  have hmapid : ∀ l : List Row, (∀ x ∈ l, checkAndFixRow x = x) →
      l.map checkAndFixRow = l := by
    intro l
    induction l with
    | nil => intro _; rfl
    | cons x t ih =>
      intro hx
      rw [List.map_cons, hx x (by simp), ih (fun y hy => hx y (by simp [hy]))]
  unfold process_rows
  apply hmapid
  intro x hx
  obtain ⟨r, _, rfl⟩ := List.mem_map.mp hx
  exact checkAndFixRow_stable r (h (checkAndFixRow r) hx)

/-- Witness for `C8_fixer_idempotent_unless_zero` at the repository's own
dividend-reinvestment fixture (first pass fixes the amount to `-$31.03`). -/
theorem C8_fixer_idempotent_unless_zero_witness :
    process_rows (process_rows [⟨"01/15/2024", "Reinvest Dividend", "MSFT",
        "MICROSOFT CORP", "$54.34", "0.571", "", "-$31.04"⟩])
      = process_rows [⟨"01/15/2024", "Reinvest Dividend", "MSFT",
        "MICROSOFT CORP", "$54.34", "0.571", "", "-$31.04"⟩] :=
  C8_fixer_idempotent_unless_zero _ (by decide)

/-- C9 counterexample: on the row with Price `$54.34`, Quantity `0.571`,
Amount `-$31.04` and empty fees, the fixer DOES rewrite the Amount (to
`-$31.03`), contradicting the claim that the row is left unchanged. -/
theorem C9_counterexample :
    (checkAndFixRow ⟨"01/15/2024", "Reinvest Dividend", "MSFT",
        "MICROSOFT CORP", "$54.34", "0.571", "", "-$31.04"⟩).amount
      = "-$31.03" ∧ ("-$31.03" : String) ≠ "-$31.04" :=
  ⟨rfl, by decide⟩

/-- C9 (amended): for that row the parsed fields are
`(54.34, 0.571, -31.04, 0)`, the expected amount is `-31.02814`
(0.571·54.34 = 31.02814, not the 31.03014 stated in the claim), the diff is
`0.01186`, which IS inside the open interval `(0.01, 1.00)`, so the fix is
applied and the Amount becomes `-$31.03`. -/
theorem C9_amended_eval :
    parsedFields ⟨"01/15/2024", "Reinvest Dividend", "MSFT",
        "MICROSOFT CORP", "$54.34", "0.571", "", "-$31.04"⟩
      = some (⟨(5434 : ℤ), 100, by omega⟩, ⟨(571 : ℤ), 1000, by omega⟩,
          fneg ⟨(3104 : ℤ), 100, by omega⟩, fZero) ∧
    toQ (calcAmount ⟨(5434 : ℤ), 100, by omega⟩ ⟨(571 : ℤ), 1000, by omega⟩
        (fneg ⟨(3104 : ℤ), 100, by omega⟩) fZero) = -(3102814/100000 : ℚ) ∧
    |toQ (calcAmount ⟨(5434 : ℤ), 100, by omega⟩ ⟨(571 : ℤ), 1000, by omega⟩
        (fneg ⟨(3104 : ℤ), 100, by omega⟩) fZero)
      - toQ (fneg ⟨(3104 : ℤ), 100, by omega⟩)| = 1186/100000 ∧
    MIN_ROUNDING_DIFF < (1186/100000 : ℚ) ∧
    (1186/100000 : ℚ) < MAX_ROUNDING_DIFF ∧
    (checkAndFixRow ⟨"01/15/2024", "Reinvest Dividend", "MSFT",
        "MICROSOFT CORP", "$54.34", "0.571", "", "-$31.04"⟩).amount
      = "-$31.03" := by
  have hcalc : calcAmount ⟨(5434 : ℤ), 100, by omega⟩ ⟨(571 : ℤ), 1000, by omega⟩
      (fneg ⟨(3104 : ℤ), 100, by omega⟩) fZero
        = ⟨(-3102814 : ℤ), 100000, by omega⟩ := by
    apply fracExt
    · decide
    · decide
  refine ⟨rfl, ?_, ?_, by norm_num [MIN_ROUNDING_DIFF], by norm_num [MAX_ROUNDING_DIFF], rfl⟩
  · rw [hcalc]
    unfold toQ
    norm_num
  · rw [hcalc]
    unfold toQ fneg
    norm_num

/-! ## Dates: `merge_transactions.parse_date` vs `common.parse_schwab_date` -/

/-- A parsed calendar date (`datetime.date`). -/
structure SDate where
  month : ℕ
  day : ℕ
  year : ℕ
deriving DecidableEq, Repr

/-- Gregorian leap year, as `datetime` implements it. -/
def isLeap (y : ℕ) : Bool := y % 4 = 0 && (y % 100 ≠ 0 || y % 400 = 0)

/-- Days in a month (`datetime` calendar validation). -/
def daysInMonth (m y : ℕ) : ℕ :=
  if m = 2 then (if isLeap y then 29 else 28)
  else if m = 4 ∨ m = 6 ∨ m = 9 ∨ m = 11 then 30 else 31

/-- A month/day/year triple `datetime.date` accepts. -/
def validDate (m d y : ℕ) : Prop :=
  1 ≤ m ∧ m ≤ 12 ∧ 1 ≤ d ∧ d ≤ daysInMonth m y ∧ 1 ≤ y ∧ y ≤ 9999

instance (m d y : ℕ) : Decidable (validDate m d y) := by
  unfold validDate
  infer_instance

/-- Split on a single separator character (all occurrences, keeping empty
pieces), as the `/` structure of the `%m/%d/%Y` pattern. -/
def splitOnCharAux (sep : Char) : List Char → List Char → List (List Char)
  | [], acc => [acc.reverse]
  | c :: t, acc =>
      if c = sep then acc.reverse :: splitOnCharAux sep t []
      else splitOnCharAux sep t (c :: acc)

/-- `splitOnCharAux` from an empty accumulator. -/
def splitOnChar (sep : Char) (l : List Char) : List (List Char) :=
  splitOnCharAux sep l []

/-- `datetime.strptime(s, "%m/%d/%Y")` followed by `datetime.date`
validation, returning `none` on `ValueError`: month and day are 1–2 digit
fields, the year exactly 4 digits, and the triple must be a real calendar
date with year ≥ 1. -/
def strptimeMDY (s : String) : Option SDate :=
  match splitOnChar '/' s.data with
  | [ms, ds, ys] =>
      if ms ≠ [] ∧ ms.length ≤ 2 ∧ ms.all Char.isDigit ∧
         ds ≠ [] ∧ ds.length ≤ 2 ∧ ds.all Char.isDigit ∧
         ys.length = 4 ∧ ys.all Char.isDigit ∧
         1 ≤ natVal ms ∧ natVal ms ≤ 12 ∧
         1 ≤ natVal ds ∧ natVal ds ≤ daysInMonth (natVal ms) (natVal ys) ∧
         1 ≤ natVal ys
      then some ⟨natVal ms, natVal ds, natVal ys⟩ else none
  | _ => none

/-- `sep` begins `l` (the prefix test used by substring search). -/
def leadsWith : List Char → List Char → Bool
  | [], _ => true
  | _ :: _, [] => false
  | a :: s, b :: t => a = b && leadsWith s t

/-- Index of the first occurrence of `sep` in the list (`str.find`,
`in`). -/
def subFind (sep : List Char) : List Char → Option ℕ
  | [] => if leadsWith sep [] then some 0 else none
  | c :: t => if leadsWith sep (c :: t) then some 0
              else (subFind sep t).map (· + 1)

/-- Fuelled worker for `str.split(sep)` with non-empty `sep = c :: sep2`:
successive non-overlapping splits, left to right. -/
def splitOnSubAux (c : Char) (sep2 : List Char) : ℕ → List Char → List Char → List (List Char)
  | 0, _, acc => [acc.reverse]
  | _ + 1, [], acc => [acc.reverse]
  | fuel + 1, h :: t, acc =>
      if leadsWith (c :: sep2) (h :: t) then
        acc.reverse :: splitOnSubAux c sep2 fuel ((h :: t).drop (sep2.length + 1)) []
      else splitOnSubAux c sep2 fuel t (h :: acc)

/-- `str.split(sep)` for non-empty `sep`. -/
def splitOnSub (sep l : List Char) : List (List Char) :=
  match sep with
  | [] => [l]
  | c :: sep2 => splitOnSubAux c sep2 (l.length + 1) l []

/-- The literal `" as of "`. -/
def asOf : List Char := (" as of " : String).data

/-- `merge_transactions.parse_date`: keep the part BEFORE a (case-sensitive)
`" as of "` marker, strip, then `strptime("%m/%d/%Y")`. -/
def parse_date (s : String) : Option SDate :=
  match subFind asOf s.data with
  | some k => strptimeMDY (strip (String.mk (s.data.take k)))
  | none => strptimeMDY (strip s)

/-- `common.parse_schwab_date`: `none` on blank; strip; if the lowercased
string contains `" as of "` and splits into exactly two parts on it, parse
the (lowercased) part AFTER the marker, stripped; otherwise parse the
stripped original. -/
def parse_schwab_date (s : String) : Option SDate :=
  if stripChars s.data = [] then none
  else
    if (subFind asOf ((stripChars s.data).map lowerChar)).isSome then
      (if (splitOnSub asOf ((stripChars s.data).map lowerChar)).length = 2 then
        strptimeMDY (strip (String.mk
          ((splitOnSub asOf ((stripChars s.data).map lowerChar)).getD 1 [])))
      else strptimeMDY (String.mk (stripChars s.data)))
    else strptimeMDY (String.mk (stripChars s.data))

/-- Zero-padded two-digit rendering. -/
def pad2chars (n : ℕ) : List Char := [dchar (n / 10), dchar n]

/-- Zero-padded four-digit rendering. -/
def pad4chars (y : ℕ) : List Char :=
  [dchar (y / 1000), dchar (y / 100), dchar (y / 10), dchar y]

/-- Canonical `MM/DD/YYYY` character rendering of a date. -/
def dateChars (m d y : ℕ) : List Char :=
  pad2chars m ++ '/' :: pad2chars d ++ '/' :: pad4chars y

theorem natVal_pad2 {n : ℕ} (h : n < 100) : natVal (pad2chars n) = n := by
  simp [pad2chars, natVal, digitVal_dchar]
  omega

theorem natVal_pad4 {y : ℕ} (h : y < 10000) : natVal (pad4chars y) = y := by
  simp [pad4chars, natVal, digitVal_dchar]
  omega

theorem dateChars_mem (m d y : ℕ) :
    ∀ c ∈ dateChars m d y, c.isDigit = true ∨ c = '/' := by
  intro c hc
  unfold dateChars pad2chars pad4chars at hc
  simp only [List.mem_append, List.mem_cons, List.not_mem_nil, or_false] at hc
  have hcase : c = dchar (m / 10) ∨ c = dchar m ∨ c = '/' ∨ c = dchar (d / 10)
      ∨ c = dchar d ∨ c = dchar (y / 1000) ∨ c = dchar (y / 100)
      ∨ c = dchar (y / 10) ∨ c = dchar y := by tauto
  rcases hcase with h | h | h | h | h | h | h | h | h <;> subst h <;>
    first
      | exact Or.inl (isDigit_dchar _)
      | exact Or.inr rfl

theorem dateChars_no_ws (m d y : ℕ) :
    ∀ c ∈ dateChars m d y, isWsChar c = false := by
  intro c hc
  rcases dateChars_mem m d y c hc with h | h
  · exact not_ws_of_digit h
  · subst h; decide

theorem dateChars_no_space (m d y : ℕ) :
    ∀ c ∈ dateChars m d y, ¬ c = ' ' := by
  intro c hc hsp
  subst hsp
  have := dateChars_no_ws m d y ' ' hc
  simp [isWsChar] at this

theorem splitOnCharAux_nil (sep : Char) (acc : List Char) :
    splitOnCharAux sep [] acc = [acc.reverse] := rfl

theorem splitOnCharAux_cons (sep a : Char) (t acc : List Char) :
    splitOnCharAux sep (a :: t) acc
      = if a = sep then acc.reverse :: splitOnCharAux sep t []
        else splitOnCharAux sep t (a :: acc) := rfl

theorem splitOnCharAux_no_sep (sep : Char) :
    ∀ (l acc : List Char), (∀ c ∈ l, ¬ c = sep) →
    splitOnCharAux sep l acc = [acc.reverse ++ l] := by
  intro l
  induction l with
  | nil => intro acc _; simp [splitOnCharAux_nil]
  | cons a t ih =>
    intro acc h
    rw [splitOnCharAux_cons, if_neg (h a (by simp)),
      ih (a :: acc) (fun c hc => h c (by simp [hc]))]
    simp

theorem splitOnCharAux_boundary (sep : Char) :
    ∀ (l1 rest acc : List Char), (∀ c ∈ l1, ¬ c = sep) →
    splitOnCharAux sep (l1 ++ sep :: rest) acc
      = (acc.reverse ++ l1) :: splitOnCharAux sep rest [] := by
  intro l1
  induction l1 with
  | nil =>
    intro rest acc _
    rw [List.nil_append, splitOnCharAux_cons, if_pos rfl]
    simp
  | cons a t ih =>
    intro rest acc h
    rw [List.cons_append, splitOnCharAux_cons, if_neg (h a (by simp)),
      ih rest (a :: acc) (fun c hc => h c (by simp [hc]))]
    simp

theorem pad2_mem {n : ℕ} {c : Char} (hc : c ∈ pad2chars n) :
    c = dchar (n / 10) ∨ c = dchar n := by
  unfold pad2chars at hc
  simpa using hc

theorem pad4_mem {y : ℕ} {c : Char} (hc : c ∈ pad4chars y) :
    c = dchar (y / 1000) ∨ c = dchar (y / 100) ∨ c = dchar (y / 10)
      ∨ c = dchar y := by
  unfold pad4chars at hc
  simpa using hc

theorem dchar_ne_slash (k : ℕ) : ¬ dchar k = '/' := by
  have h : ∀ m, m < 10 → ¬ Char.ofNat (48 + m) = '/' := by decide
  have := h (k % 10) (Nat.mod_lt _ (by omega))
  simpa [dchar] using this

theorem pad2_no_slash (n : ℕ) : ∀ c ∈ pad2chars n, ¬ c = '/' := by
  intro c hc
  rcases pad2_mem hc with h | h <;> (subst h; exact dchar_ne_slash _)

theorem pad4_no_slash (y : ℕ) : ∀ c ∈ pad4chars y, ¬ c = '/' := by
  intro c hc
  rcases pad4_mem hc with h | h | h | h <;> (subst h; exact dchar_ne_slash _)

theorem splitOnChar_dateChars (m d y : ℕ) :
    splitOnChar '/' (dateChars m d y) = [pad2chars m, pad2chars d, pad4chars y] := by
  unfold splitOnChar dateChars
  rw [show (pad2chars m ++ '/' :: pad2chars d ++ '/' :: pad4chars y : List Char)
      = pad2chars m ++ '/' :: (pad2chars d ++ '/' :: pad4chars y) by
    simp [List.append_assoc]]
  rw [splitOnCharAux_boundary '/' (pad2chars m) _ [] (pad2_no_slash m)]
  rw [splitOnCharAux_boundary '/' (pad2chars d) _ [] (pad2_no_slash d)]
  rw [splitOnCharAux_no_sep '/' (pad4chars y) [] (pad4_no_slash y)]
  simp

theorem pad2_all_digits (n : ℕ) : (pad2chars n).all Char.isDigit = true := by
  simp [pad2chars, isDigit_dchar]

theorem pad4_all_digits (y : ℕ) : (pad4chars y).all Char.isDigit = true := by
  simp [pad4chars, isDigit_dchar]

theorem strptime_render {m d y : ℕ} (h : validDate m d y) :
    strptimeMDY (String.mk (dateChars m d y)) = some ⟨m, d, y⟩ := by
  obtain ⟨h1, h2, h3, h4, h5, h6⟩ := h
  have hvm : natVal (pad2chars m) = m := natVal_pad2 (by omega)
  have hvd : natVal (pad2chars d) = d := by
    apply natVal_pad2
    have : daysInMonth m y ≤ 31 := by
      unfold daysInMonth
      split
      · split <;> omega
      · split <;> omega
    omega
  have hvy : natVal (pad4chars y) = y := natVal_pad4 (by omega)
  unfold strptimeMDY
  rw [show (String.mk (dateChars m d y)).data = dateChars m d y from rfl,
    splitOnChar_dateChars]
  dsimp only
  rw [hvm, hvd, hvy]
  rw [if_pos ⟨by simp [pad2chars], by simp [pad2chars], pad2_all_digits m,
    by simp [pad2chars], by simp [pad2chars], pad2_all_digits d,
    by simp [pad4chars], pad4_all_digits y, h1, h2, h3, h4, h5⟩]

theorem leadsWith_append_self : ∀ (s t : List Char), leadsWith s (s ++ t) = true := by
  intro s
  induction s with
  | nil => intro t; rfl
  | cons a s2 ih => intro t; simp [leadsWith, ih]

theorem subFind_cons (sep : List Char) (a : Char) (t : List Char) :
    subFind sep (a :: t)
      = if leadsWith sep (a :: t) then some 0
        else (subFind sep t).map (· + 1) := rfl

theorem subFind_prefix_head {c : Char} {s2 : List Char} :
    ∀ (A B : List Char), (∀ x ∈ A, ¬ x = c) →
    subFind (c :: s2) (A ++ (c :: s2) ++ B) = some A.length := by
  intro A
  induction A with
  | nil =>
    intro B _
    show subFind (c :: s2) ((c :: s2) ++ B) = some 0
    rw [show ((c :: s2) ++ B : List Char) = c :: (s2 ++ B) from rfl,
      subFind_cons, if_pos]
    exact leadsWith_append_self (c :: s2) B
  | cons a A2 ih =>
    intro B h
    rw [show ((a :: A2) ++ (c :: s2) ++ B : List Char)
        = a :: (A2 ++ (c :: s2) ++ B) from by simp,
      subFind_cons, if_neg (by
        simp only [leadsWith, Bool.and_eq_true, decide_eq_true_eq]
        intro hcontra
        exact h a (by simp) hcontra.1.symm),
      ih B (fun x hx => h x (by simp [hx]))]
    rfl

theorem splitOnSubAux_cons (c : Char) (s2 : List Char) (fuel : ℕ)
    (h : Char) (t acc : List Char) :
    splitOnSubAux c s2 (fuel + 1) (h :: t) acc
      = if leadsWith (c :: s2) (h :: t) then
          acc.reverse :: splitOnSubAux c s2 fuel ((h :: t).drop (s2.length + 1)) []
        else splitOnSubAux c s2 fuel t (h :: acc) := rfl

theorem splitOnSubAux_empty (c : Char) (s2 : List Char) (fuel : ℕ)
    (acc : List Char) :
    splitOnSubAux c s2 fuel [] acc = [acc.reverse] := by
  cases fuel <;> rfl

theorem splitOnSubAux_walk (c : Char) (s2 : List Char) :
    ∀ (X rest acc : List Char) (fuel : ℕ), (∀ x ∈ X, ¬ x = c) →
    X.length ≤ fuel →
    splitOnSubAux c s2 fuel (X ++ rest) acc
      = splitOnSubAux c s2 (fuel - X.length) rest (X.reverse ++ acc) := by
  intro X
  induction X with
  | nil => intro rest acc fuel _ _; simp
  | cons x X2 ih =>
    intro rest acc fuel h hf
    cases fuel with
    | zero => simp at hf
    | succ f =>
      rw [show ((x :: X2) ++ rest : List Char) = x :: (X2 ++ rest) from rfl,
        splitOnSubAux_cons, if_neg (by
          simp only [leadsWith, Bool.and_eq_true, decide_eq_true_eq]
          intro hcontra
          exact h x (by simp) hcontra.1.symm),
        ih rest (x :: acc) f (fun z hz => h z (by simp [hz])) (by simpa using hf)]
      have hfl : f - X2.length = (f + 1) - (X2.length + 1) := by omega
      rw [hfl]
      congr 1
      simp

theorem splitOnSubAux_hit (c : Char) (s2 rest acc : List Char) (fuel : ℕ) :
    splitOnSubAux c s2 (fuel + 1) ((c :: s2) ++ rest) acc
      = acc.reverse :: splitOnSubAux c s2 fuel rest [] := by
  rw [show ((c :: s2) ++ rest : List Char) = c :: (s2 ++ rest) from rfl,
    splitOnSubAux_cons,
    if_pos (show leadsWith (c :: s2) (c :: (s2 ++ rest)) = true from
      leadsWith_append_self (c :: s2) rest)]
  congr 1
  rw [show (c :: (s2 ++ rest) : List Char).drop (s2.length + 1)
      = (s2 ++ rest).drop s2.length from rfl,
    List.drop_left]

theorem asOf_eq : asOf = ' ' :: ['a', 's', ' ', 'o', 'f', ' '] := rfl

theorem subFind_asOf (A B : List Char) (hA : ∀ x ∈ A, ¬ x = ' ') :
    subFind asOf (A ++ asOf ++ B) = some A.length := by
  rw [asOf_eq]
  exact subFind_prefix_head A B hA

theorem splitOnSub_asOf (A B : List Char) (hA : ∀ x ∈ A, ¬ x = ' ')
    (hB : ∀ x ∈ B, ¬ x = ' ') :
    splitOnSub asOf (A ++ asOf ++ B) = [A, B] := by
  rw [asOf_eq]
  show splitOnSubAux ' ' ['a', 's', ' ', 'o', 'f', ' ']
      ((A ++ (' ' :: ['a', 's', ' ', 'o', 'f', ' ']) ++ B).length + 1)
      (A ++ (' ' :: ['a', 's', ' ', 'o', 'f', ' ']) ++ B) [] = [A, B]
  have hlen : (A ++ (' ' :: ['a', 's', ' ', 'o', 'f', ' ']) ++ B).length + 1
      = A.length + (B.length + 7 + 1) := by
    simp
    omega
  have hassoc : (A ++ (' ' :: ['a', 's', ' ', 'o', 'f', ' ']) ++ B)
      = A ++ ((' ' :: ['a', 's', ' ', 'o', 'f', ' ']) ++ B) := by
    simp [List.append_assoc]
  rw [hlen, hassoc]
  rw [splitOnSubAux_walk ' ' ['a', 's', ' ', 'o', 'f', ' '] A
    ((' ' :: ['a', 's', ' ', 'o', 'f', ' ']) ++ B) []
    (A.length + (B.length + 7 + 1)) hA (by omega)]
  have h2 : A.length + (B.length + 7 + 1) - A.length = (B.length + 7) + 1 := by
    omega
  rw [h2]
  rw [show (' ' :: ['a', 's', ' ', 'o', 'f', ' '] : List Char) ++ B
      = (' ' :: ['a', 's', ' ', 'o', 'f', ' ']) ++ B from rfl]
  rw [splitOnSubAux_hit ' ' ['a', 's', ' ', 'o', 'f', ' '] B
    (A.reverse ++ []) (B.length + 7)]
  have hclean : splitOnSubAux ' ' ['a', 's', ' ', 'o', 'f', ' ']
      (B.length + 7) B [] = [B] := by
    have hw := splitOnSubAux_walk ' ' ['a', 's', ' ', 'o', 'f', ' '] B [] []
      (B.length + 7) hB (by omega)
    rw [show (B ++ [] : List Char) = B from by simp] at hw
    rw [hw, splitOnSubAux_empty]
    simp
  rw [hclean]
  simp

theorem stripChars_first_last {a b : Char} (mid : List Char)
    (ha : isWsChar a = false) (hb : isWsChar b = false) :
    stripChars (a :: (mid ++ [b])) = a :: (mid ++ [b]) := by
  unfold stripChars
  rw [show (a :: (mid ++ [b]) : List Char).dropWhile isWsChar
      = a :: (mid ++ [b]) from by rw [List.dropWhile_cons_of_neg (by simp [ha])]]
  rw [show (a :: (mid ++ [b]) : List Char).reverse
      = b :: (mid.reverse ++ [a]) from by simp]
  rw [show (b :: (mid.reverse ++ [a]) : List Char).dropWhile isWsChar
      = b :: (mid.reverse ++ [a]) from by
    rw [List.dropWhile_cons_of_neg (by simp [hb])]]
  rw [show (b :: (mid.reverse ++ [a]) : List Char).reverse
      = a :: (mid ++ [b]) from by simp]

theorem map_fix_eq : ∀ (l : List Char) (f : Char → Char),
    (∀ c ∈ l, f c = c) → l.map f = l := by
  intro l f
  induction l with
  | nil => intro _; rfl
  | cons a t ih =>
    intro h
    rw [List.map_cons, h a (by simp), ih (fun c hc => h c (by simp [hc]))]

theorem lowerChar_dchar (k : ℕ) : lowerChar (dchar k) = dchar k := by
  have h : ∀ m, m < 10 → lowerChar (Char.ofNat (48 + m)) = Char.ofNat (48 + m) := by
    decide
  have := h (k % 10) (Nat.mod_lt _ (by omega))
  simpa [dchar] using this

theorem map_lower_dateChars (m d y : ℕ) :
    (dateChars m d y).map lowerChar = dateChars m d y := by
  apply map_fix_eq
  intro c hc
  rcases dateChars_mem m d y c hc with h | h
  · unfold dateChars at hc
    have hcase : c = dchar (m / 10) ∨ c = dchar m ∨ c = '/' ∨ c = dchar (d / 10)
        ∨ c = dchar d ∨ c = dchar (y / 1000) ∨ c = dchar (y / 100)
        ∨ c = dchar (y / 10) ∨ c = dchar y := by
      simp only [List.mem_append, List.mem_cons, List.not_mem_nil, or_false] at hc
      unfold pad2chars pad4chars at hc
      simp at hc
      tauto
    rcases hcase with h2 | h2 | h2 | h2 | h2 | h2 | h2 | h2 | h2 <;> subst h2 <;>
      first
        | exact lowerChar_dchar _
        | decide
  · subst h
    decide

theorem map_lower_asOf : asOf.map lowerChar = asOf := rfl

/-- C10: the two date parsers disagree on `"D1 as of D2"` strings.
`merge_transactions.parse_date` keeps the date BEFORE the `" as of "` marker,
`common.parse_schwab_date` keeps the date AFTER it, and for any two valid,
distinct `MM/DD/YYYY` dates the two functions return different dates on the
combined string. -/
theorem C10_date_parsers_disagree (m1 d1 y1 m2 d2 y2 : ℕ)
    (h1 : validDate m1 d1 y1) (h2 : validDate m2 d2 y2)
    (hne : (⟨m1, d1, y1⟩ : SDate) ≠ ⟨m2, d2, y2⟩) :
    parse_date (String.mk (dateChars m1 d1 y1 ++ asOf ++ dateChars m2 d2 y2))
        = some ⟨m1, d1, y1⟩ ∧
    parse_schwab_date
        (String.mk (dateChars m1 d1 y1 ++ asOf ++ dateChars m2 d2 y2))
        = some ⟨m2, d2, y2⟩ ∧
    parse_date (String.mk (dateChars m1 d1 y1 ++ asOf ++ dateChars m2 d2 y2))
        ≠ parse_schwab_date
          (String.mk (dateChars m1 d1 y1 ++ asOf ++ dateChars m2 d2 y2)) := by
  have hA := dateChars_no_space m1 d1 y1
  have hB := dateChars_no_space m2 d2 y2
  have hfind := subFind_asOf (dateChars m1 d1 y1) (dateChars m2 d2 y2) hA
  have hsplit := splitOnSub_asOf (dateChars m1 d1 y1) (dateChars m2 d2 y2) hA hB
  have hdecomp : dateChars m1 d1 y1 ++ asOf ++ dateChars m2 d2 y2
      = dchar (m1 / 10) :: (([dchar m1, '/', dchar (d1 / 10), dchar d1, '/',
          dchar (y1 / 1000), dchar (y1 / 100), dchar (y1 / 10), dchar y1]
          ++ asOf ++ [dchar (m2 / 10), dchar m2, '/', dchar (d2 / 10), dchar d2,
          '/', dchar (y2 / 1000), dchar (y2 / 100), dchar (y2 / 10)])
          ++ [dchar y2]) := by
    simp [dateChars, pad2chars, pad4chars, asOf]
  have hstripfull : stripChars (dateChars m1 d1 y1 ++ asOf ++ dateChars m2 d2 y2)
      = dateChars m1 d1 y1 ++ asOf ++ dateChars m2 d2 y2 := by
    rw [hdecomp]
    exact stripChars_first_last _ (not_ws_of_digit (isDigit_dchar _))
      (not_ws_of_digit (isDigit_dchar _))
  have hstripA : strip (String.mk (dateChars m1 d1 y1))
      = String.mk (dateChars m1 d1 y1) := by
    unfold strip
    rw [show (String.mk (dateChars m1 d1 y1)).data = dateChars m1 d1 y1 from rfl,
      stripChars_of_no_ws (dateChars_no_ws m1 d1 y1)]
  have hstripB : strip (String.mk (dateChars m2 d2 y2))
      = String.mk (dateChars m2 d2 y2) := by
    unfold strip
    rw [show (String.mk (dateChars m2 d2 y2)).data = dateChars m2 d2 y2 from rfl,
      stripChars_of_no_ws (dateChars_no_ws m2 d2 y2)]
  have ha : parse_date
      (String.mk (dateChars m1 d1 y1 ++ asOf ++ dateChars m2 d2 y2))
        = some ⟨m1, d1, y1⟩ := by
    unfold parse_date
    rw [show (String.mk (dateChars m1 d1 y1 ++ asOf
        ++ dateChars m2 d2 y2)).data
        = dateChars m1 d1 y1 ++ asOf ++ dateChars m2 d2 y2 from rfl, hfind]
    dsimp only
    rw [show (dateChars m1 d1 y1 ++ asOf ++ dateChars m2 d2 y2).take
        (dateChars m1 d1 y1).length = dateChars m1 d1 y1 from by
      rw [List.append_assoc]
      exact List.take_left _ _]
    rw [hstripA]
    exact strptime_render h1
  have hb : parse_schwab_date
      (String.mk (dateChars m1 d1 y1 ++ asOf ++ dateChars m2 d2 y2))
        = some ⟨m2, d2, y2⟩ := by
    unfold parse_schwab_date
    rw [show (String.mk (dateChars m1 d1 y1 ++ asOf
        ++ dateChars m2 d2 y2)).data
        = dateChars m1 d1 y1 ++ asOf ++ dateChars m2 d2 y2 from rfl, hstripfull]
    have hlow : (dateChars m1 d1 y1 ++ asOf ++ dateChars m2 d2 y2).map lowerChar
        = dateChars m1 d1 y1 ++ asOf ++ dateChars m2 d2 y2 := by
      rw [List.map_append, List.map_append, map_lower_dateChars,
        map_lower_asOf, map_lower_dateChars]
    rw [if_neg (by rw [hdecomp]; simp), hlow, hfind, hsplit]
    rw [if_pos (by simp), if_pos (by simp)]
    rw [show ([dateChars m1 d1 y1, dateChars m2 d2 y2].getD 1 [])
        = dateChars m2 d2 y2 from rfl]
    rw [hstripB]
    exact strptime_render h2
  exact ⟨ha, hb, by
    rw [ha, hb]
    intro hcontra
    exact hne (Option.some.inj hcontra)⟩

/-- Witness for `C10_date_parsers_disagree`: the spec's own example string
`"06/02/2025 as of 05/30/2025"` parses to June 2, 2025 under the merge
pipeline's parser and to May 30, 2025 under the postprocess parser. -/
theorem C10_date_parsers_disagree_witness :
    parse_date "06/02/2025 as of 05/30/2025" = some ⟨6, 2, 2025⟩ ∧
    parse_schwab_date "06/02/2025 as of 05/30/2025" = some ⟨5, 30, 2025⟩ ∧
    parse_date "06/02/2025 as of 05/30/2025"
      ≠ parse_schwab_date "06/02/2025 as of 05/30/2025" := by
  have h := C10_date_parsers_disagree 6 2 2025 5 30 2025
    (by decide) (by decide) (by decide)
  rw [show ("06/02/2025 as of 05/30/2025" : String)
      = String.mk (dateChars 6 2 2025 ++ asOf ++ dateChars 5 30 2025) from rfl]
  exact h

/-! ## Transfer matching (`merge_transactions`)

The matched-index sets built by the Python loops are modelled as lists of
indices (only membership is ever observed); `account_numbers` is modelled as
`Option (List String)` (`none` = verification disabled, and a `some` empty
list is falsy exactly like an empty Python set). -/

/-- The 0.01 tolerance literal of the matching loops. -/
def f001 : Frac := ⟨1, 100, by omega⟩

/-- Truthiness of the `account_numbers` argument. -/
def accountsTruthy : Option (List String) → Bool
  | none => false
  | some accts => !(accts = [] : Bool)

/-- `common.extract_journal_account`, i.e. `re.search(r"\.{3}(\d{3,4})", s)`:
leftmost position with three literal dots followed by at least three digits;
the group takes greedily up to four digits. -/
def eja : List Char → Option (List Char)
  | [] => none
  | c :: t =>
      if c = '.' ∧ leadsWith ['.', '.'] t ∧
         3 ≤ ((t.drop 2).takeWhile Char.isDigit).length
      then some (((t.drop 2).takeWhile Char.isDigit).take 4)
      else eja t

/-- `extract_journal_account` on strings. -/
def extract_journal_account (s : String) : Option String :=
  (eja s.data).map String.mk

/-- `"JOURNAL TO" in desc.upper()`. -/
def hasJournalTo (desc : String) : Bool :=
  (subFind ("JOURNAL TO" : String).data (desc.data.map upperChar)).isSome

/-- `"JOURNAL FRM" in desc.upper()`. -/
def hasJournalFrm (desc : String) : Bool :=
  (subFind ("JOURNAL FRM" : String).data (desc.data.map upperChar)).isSome

/-- Inner scan of `_match_journaled_shares`: first not-yet-matched later row
with parseable quantity, equal Symbol/Date/Price and quantities summing to
within 0.01 of zero. -/
def jsFirstPartner (r1 : Row) (q1 : Frac) (matched : List ℕ) :
    List (ℕ × Row) → Option ℕ
  | [] => none
  | (j, r2) :: rest =>
      if j ∈ matched then jsFirstPartner r1 q1 matched rest
      else
        match parse_quantity r2.quantity with
        | none => jsFirstPartner r1 q1 matched rest
        | some q2 =>
            if r1.symbol = r2.symbol ∧ r1.date = r2.date ∧ r1.price = r2.price ∧
               flt (fabs (fadd q1 q2)) f001
            then some j
            else jsFirstPartner r1 q1 matched rest

/-- Outer scan of `_match_journaled_shares` over enumerated rows. -/
def jsAux : List (ℕ × Row) → List ℕ → List ℕ
  | [], m => m
  | (i, r1) :: rest, m =>
      if i ∈ m then jsAux rest m
      else
        match parse_quantity r1.quantity with
        | none => jsAux rest m
        | some q1 =>
            match jsFirstPartner r1 q1 m rest with
            | some j => jsAux rest (j :: i :: m)
            | none => jsAux rest m

/-- `_match_journaled_shares`: the set of matched indices. -/
def matchJournaledShares (rows : List Row) : List ℕ := jsAux rows.enum []

/-- The account cross-check of `_match_journal_transfers`: a candidate pair is
rejected iff verification is on (truthy set) AND both descriptions yield an
account AND at least one of the two accounts is outside the set. -/
def journalAccountReject (accounts : Option (List String))
    (acct1 acct2 : Option String) : Bool :=
  match accounts, acct1, acct2 with
  | some accts, some a1, some a2 =>
      if accts = [] then false
      else if a1 ∈ accts then (if a2 ∈ accts then false else true) else true
  | _, _, _ => false

/-- Inner scan of `_match_journal_transfers`. -/
def jtFirstPartner (r1 : Row) (amt1 : Frac) (acct1 : Option String)
    (accounts : Option (List String)) (matched : List ℕ) :
    List (ℕ × Row) → Option ℕ
  | [] => none
  | (j, r2) :: rest =>
      if j ∈ matched then jtFirstPartner r1 amt1 acct1 accounts matched rest
      else
        match parse_amount r2.amount with
        | none => jtFirstPartner r1 amt1 acct1 accounts matched rest
        | some amt2 =>
            if ¬ (r1.date = r2.date) then
              jtFirstPartner r1 amt1 acct1 accounts matched rest
            else if ¬ ((hasJournalTo r1.description ∧ hasJournalFrm r2.description)
                ∨ (hasJournalFrm r1.description ∧ hasJournalTo r2.description)) then
              jtFirstPartner r1 amt1 acct1 accounts matched rest
            else if fle f001 (fabs (fadd amt1 amt2)) then
              jtFirstPartner r1 amt1 acct1 accounts matched rest
            else if (accountsTruthy accounts ∧
                journalAccountReject accounts acct1
                  (extract_journal_account (strUpper r2.description)) = true) then
              jtFirstPartner r1 amt1 acct1 accounts matched rest
            else some j

/-- Outer scan of `_match_journal_transfers` over enumerated rows. -/
def jtAux (accounts : Option (List String)) : List (ℕ × Row) → List ℕ → List ℕ
  | [], m => m
  | (i, r1) :: rest, m =>
      if i ∈ m then jtAux accounts rest m
      else
        match parse_amount r1.amount with
        | none => jtAux accounts rest m
        | some amt1 =>
            if ¬ (hasJournalTo r1.description ∨ hasJournalFrm r1.description) then
              jtAux accounts rest m
            else
              match jtFirstPartner r1 amt1
                  (if accountsTruthy accounts then
                    extract_journal_account (strUpper r1.description)
                  else none) accounts m rest with
              | some j => jtAux accounts rest (j :: i :: m)
              | none => jtAux accounts rest m

/-- `_match_journal_transfers`: the set of matched indices. -/
def matchJournalTransfers (rows : List Row)
    (accounts : Option (List String)) : List ℕ :=
  jtAux accounts rows.enum []

/-- The "problematic" test of `_validate_unmatched_transfers`: the row's
description mentions an account belonging to the merge set. -/
def problematicJournal (accounts : Option (List String)) (r : Row) : Bool :=
  match extract_journal_account r.description, accounts with
  | some acct, some accts => decide (acct ∈ accts)
  | _, _ => false

/-- `_validate_unmatched_transfers`, as the predicate "raises
`ValidationError`". -/
def validateUnmatched (journaled journal : List Row) (jsM jM : List ℕ)
    (accounts : Option (List String)) (keep : Bool) : Bool :=
  if accountsTruthy accounts ∧
     ((List.range journal.length).filter (fun i => i ∉ jM)) ≠ [] ∧
     keep = false ∧
     (((List.range journal.length).filter (fun i => i ∉ jM)).filter (fun idx =>
        match journal[idx]? with
        | some r => problematicJournal accounts r
        | none => false)) ≠ []
  then true
  else
    if 0 < ((List.range journaled.length).filter (fun i => i ∉ jsM)).length
          + ((List.range journal.length).filter (fun i => i ∉ jM)).length ∧
       keep = false ∧
       (((List.range journaled.length).filter (fun i => i ∉ jsM)) ≠ [] ∨
        (((List.range journal.length).filter (fun i => i ∉ jM)) ≠ [] ∧
         accountsTruthy accounts = false))
    then true
    else false

/-- `_combine_results`: the non-transfer rows, followed (when
`keep_unmatched`) by the unmatched transfer rows in ascending index order. -/
def combineResults (other journaled journal : List Row) (jsM jM : List ℕ)
    (keep : Bool) : List Row :=
  other ++
    (if keep then
      (((List.range journaled.length).filter (fun i => i ∉ jsM)).filterMap
        (fun i => journaled[i]?)) ++
      (((List.range journal.length).filter (fun i => i ∉ jM)).filterMap
        (fun i => journal[i]?))
    else [])

/-- `filter_journaled_shares`: split by action, match both transfer kinds,
validate (`none` = `ValidationError`), combine. -/
def filter_journaled_shares (rows : List Row) (keep : Bool)
    (accounts : Option (List String)) : Option (List Row) :=
  if rows.filter (fun r => r.action = "Journaled Shares") = [] ∧
     rows.filter (fun r => ¬ r.action = "Journaled Shares" ∧ r.action = "Journal")
       = [] then
    some rows
  else
    if validateUnmatched
        (rows.filter (fun r => r.action = "Journaled Shares"))
        (rows.filter (fun r => ¬ r.action = "Journaled Shares" ∧ r.action = "Journal"))
        (matchJournaledShares (rows.filter (fun r => r.action = "Journaled Shares")))
        (matchJournalTransfers
          (rows.filter (fun r => ¬ r.action = "Journaled Shares" ∧ r.action = "Journal"))
          accounts)
        accounts keep
    then none
    else
      some (combineResults
        (rows.filter (fun r => ¬ r.action = "Journaled Shares" ∧ ¬ r.action = "Journal"))
        (rows.filter (fun r => r.action = "Journaled Shares"))
        (rows.filter (fun r => ¬ r.action = "Journaled Shares" ∧ r.action = "Journal"))
        (matchJournaledShares (rows.filter (fun r => r.action = "Journaled Shares")))
        (matchJournalTransfers
          (rows.filter (fun r => ¬ r.action = "Journaled Shares" ∧ r.action = "Journal"))
          accounts)
        keep)

/-- The pair predicate of `_match_journaled_shares`, with the quantity
tolerance phrased over ℚ: equal Symbol, Date and Price as raw strings, and
quantities that parse and sum to within 0.01 of zero. -/
def jsCompatible (r1 r2 : Row) : Prop :=
  r1.symbol = r2.symbol ∧ r1.date = r2.date ∧ r1.price = r2.price ∧
  ∃ q1 q2, parse_quantity r1.quantity = some q1 ∧
    parse_quantity r2.quantity = some q2 ∧ |toQ q1 + toQ q2| < 1/100

/-! ## Claim C3: journaled-shares matching -/

/-- `toQ` of the 0.01 tolerance literal. -/
theorem toQ_f001 : toQ f001 = 1/100 := by
  norm_num [toQ, f001]

/-- A strict comparison excludes the reverse non-strict one. -/
theorem not_fle_of_flt {a b : Frac} (h : flt a b) : ¬ fle b a := by
  intro h2; unfold flt at h; unfold fle at h2; linarith

/-- `jsCompatible` is symmetric. -/
theorem jsCompatible_symm {r1 r2 : Row} (h : jsCompatible r1 r2) :
    jsCompatible r2 r1 := by
  obtain ⟨hs, hd, hp, q1, q2, h1, h2, hq⟩ := h
  exact ⟨hs.symm, hd.symm, hp.symm, q2, q1, h2, h1, by rwa [add_comm]⟩

/-- The matched set only grows along the `_match_journaled_shares` scan. -/
theorem jsAux_mono (l : List (ℕ × Row)) :
    ∀ (m : List ℕ) (i : ℕ), i ∈ m → i ∈ jsAux l m := by
  induction l with
  | nil => exact fun m i h => h
  | cons p rest ih =>
      obtain ⟨i0, r1⟩ := p
      intro m i h
      by_cases hi0 : i0 ∈ m
      · simp only [jsAux, if_pos hi0]
        exact ih m i h
      · cases hq : parse_quantity r1.quantity with
        | none =>
            simp only [jsAux, if_neg hi0, hq]
            exact ih m i h
        | some q1 =>
            cases hp : jsFirstPartner r1 q1 m rest with
            | none =>
                simp only [jsAux, if_neg hi0, hq, hp]
                exact ih m i h
            | some j =>
                simp only [jsAux, if_neg hi0, hq, hp]
                exact ih _ i (by simp [h])

/-- Inversion of a successful inner scan of `_match_journaled_shares`. -/
theorem jsFirstPartner_some (r1 : Row) (q1 : Frac) (l : List (ℕ × Row)) :
    ∀ (m : List ℕ) (j : ℕ), jsFirstPartner r1 q1 m l = some j →
      ∃ r2 q2, (j, r2) ∈ l ∧ j ∉ m ∧ parse_quantity r2.quantity = some q2 ∧
        r1.symbol = r2.symbol ∧ r1.date = r2.date ∧ r1.price = r2.price ∧
        flt (fabs (fadd q1 q2)) f001 := by
  induction l with
  | nil => intro m j h; simp [jsFirstPartner] at h
  | cons p rest ih =>
      obtain ⟨j0, r2⟩ := p
      intro m j h
      by_cases hj0 : j0 ∈ m
      · simp only [jsFirstPartner, if_pos hj0] at h
        obtain ⟨r2', q2', hmem, h5⟩ := ih m j h
        exact ⟨r2', q2', List.mem_cons_of_mem _ hmem, h5⟩
      · cases hq : parse_quantity r2.quantity with
        | none =>
            simp only [jsFirstPartner, if_neg hj0, hq] at h
            obtain ⟨r2', q2', hmem, h5⟩ := ih m j h
            exact ⟨r2', q2', List.mem_cons_of_mem _ hmem, h5⟩
        | some q2 =>
            simp only [jsFirstPartner, if_neg hj0, hq] at h
            by_cases hc : r1.symbol = r2.symbol ∧ r1.date = r2.date ∧
                r1.price = r2.price ∧ flt (fabs (fadd q1 q2)) f001
            · rw [if_pos hc] at h
              injection h with h
              subst h
              exact ⟨r2, q2, List.mem_cons_self _ _, hj0, hq,
                hc.1, hc.2.1, hc.2.2.1, hc.2.2.2⟩
            · rw [if_neg hc] at h
              obtain ⟨r2', q2', hmem, h5⟩ := ih m j h
              exact ⟨r2', q2', List.mem_cons_of_mem _ hmem, h5⟩

/-- Inversion of a failed inner scan of `_match_journaled_shares`. -/
theorem jsFirstPartner_none (r1 : Row) (q1 : Frac) (l : List (ℕ × Row)) :
    ∀ (m : List ℕ), jsFirstPartner r1 q1 m l = none →
      ∀ (j : ℕ) (r2 : Row), (j, r2) ∈ l → j ∉ m →
        ∀ q2, parse_quantity r2.quantity = some q2 →
          ¬(r1.symbol = r2.symbol ∧ r1.date = r2.date ∧ r1.price = r2.price ∧
            flt (fabs (fadd q1 q2)) f001) := by
  induction l with
  | nil => intro m _ j r2 hmem; simp at hmem
  | cons p rest ih =>
      obtain ⟨j0, r0⟩ := p
      intro m h j r2 hmem hjm q2 hq2 hc
      by_cases hj0 : j0 ∈ m
      · simp only [jsFirstPartner, if_pos hj0] at h
        rcases List.mem_cons.mp hmem with hhead | htail
        · rw [Prod.mk.injEq] at hhead
          exact hjm (by rw [hhead.1]; exact hj0)
        · exact ih m h j r2 htail hjm q2 hq2 hc
      · cases hq : parse_quantity r0.quantity with
        | none =>
            simp only [jsFirstPartner, if_neg hj0, hq] at h
            rcases List.mem_cons.mp hmem with hhead | htail
            · rw [Prod.mk.injEq] at hhead
              rw [hhead.2, hq] at hq2
              exact Option.noConfusion hq2
            · exact ih m h j r2 htail hjm q2 hq2 hc
        | some q0 =>
            by_cases hcc : r1.symbol = r0.symbol ∧ r1.date = r0.date ∧
                r1.price = r0.price ∧ flt (fabs (fadd q1 q0)) f001
            · simp only [jsFirstPartner, if_neg hj0, hq, if_pos hcc] at h
              exact Option.noConfusion h
            · simp only [jsFirstPartner, if_neg hj0, hq, if_neg hcc] at h
              rcases List.mem_cons.mp hmem with hhead | htail
              · rw [Prod.mk.injEq] at hhead
                obtain ⟨hj, hr⟩ := hhead
                subst hr
                rw [hq] at hq2
                injection hq2 with hq2
                subst hq2
                exact hcc hc
              · exact ih m h j r2 htail hjm q2 hq2 hc

/-- Soundness invariant of the `_match_journaled_shares` scan: every matched
index carries a distinct matched partner with a compatible row. -/
theorem jsAux_sound (rows : List Row) (l : List (ℕ × Row)) :
    ∀ (m : List ℕ),
      (∀ p ∈ l, rows[p.1]? = some p.2) →
      (l.map Prod.fst).Nodup →
      (∀ i ∈ m, ∃ ri, rows[i]? = some ri ∧ ∃ j, j ∈ m ∧ j ≠ i ∧
        ∃ rj, rows[j]? = some rj ∧ jsCompatible ri rj) →
      ∀ i ∈ jsAux l m, ∃ ri, rows[i]? = some ri ∧ ∃ j, j ∈ jsAux l m ∧ j ≠ i ∧
        ∃ rj, rows[j]? = some rj ∧ jsCompatible ri rj := by
  induction l with
  | nil => intro m _ _ hm i hi; exact hm i hi
  | cons p rest ih =>
      obtain ⟨i0, r1⟩ := p
      intro m hl hnd hm
      have hl0 : rows[i0]? = some r1 := hl (i0, r1) (List.mem_cons_self _ _)
      have hlr : ∀ p ∈ rest, rows[p.1]? = some p.2 :=
        fun p hp => hl p (List.mem_cons_of_mem _ hp)
      have hndc : (i0 :: rest.map Prod.fst).Nodup := by
        have h := hnd
        rw [List.map_cons] at h
        exact h
      have hni0 : i0 ∉ rest.map Prod.fst := (List.nodup_cons.mp hndc).1
      have hndr : (rest.map Prod.fst).Nodup := (List.nodup_cons.mp hndc).2
      by_cases hi0 : i0 ∈ m
      · intro i hi
        simp only [jsAux, if_pos hi0] at hi ⊢
        exact ih m hlr hndr hm i hi
      · cases hq : parse_quantity r1.quantity with
        | none =>
            intro i hi
            simp only [jsAux, if_neg hi0, hq] at hi ⊢
            exact ih m hlr hndr hm i hi
        | some q1 =>
            cases hpart : jsFirstPartner r1 q1 m rest with
            | none =>
                intro i hi
                simp only [jsAux, if_neg hi0, hq, hpart] at hi ⊢
                exact ih m hlr hndr hm i hi
            | some j =>
                obtain ⟨r2, q2, hmem2, hjm, hq2, hs, hd, hp, hf⟩ :=
                  jsFirstPartner_some r1 q1 rest m j hpart
                have hjrow : rows[j]? = some r2 := hlr (j, r2) hmem2
                have hji0 : j ≠ i0 := by
                  intro hji
                  exact hni0 (by rw [← hji]; exact List.mem_map.mpr ⟨(j, r2), hmem2, rfl⟩)
                have hcomp : jsCompatible r1 r2 := by
                  refine ⟨hs, hd, hp, q1, q2, hq, hq2, ?_⟩
                  have h1 := (flt_iff _ _).mp hf
                  rwa [toQ_fabs, toQ_fadd, toQ_f001] at h1
                have hm' : ∀ i ∈ (j :: i0 :: m), ∃ ri, rows[i]? = some ri ∧
                    ∃ k, k ∈ (j :: i0 :: m) ∧ k ≠ i ∧
                      ∃ rk, rows[k]? = some rk ∧ jsCompatible ri rk := by
                  intro i hi
                  rcases List.mem_cons.mp hi with hij | hi'
                  · subst hij
                    exact ⟨r2, hjrow, i0, by simp, Ne.symm hji0, r1, hl0,
                      jsCompatible_symm hcomp⟩
                  · rcases List.mem_cons.mp hi' with hii0 | him
                    · subst hii0
                      exact ⟨r1, hl0, j, by simp, hji0, r2, hjrow, hcomp⟩
                    · obtain ⟨ri, hri, k, hk, hki, rk, hrk, hcm⟩ := hm i him
                      exact ⟨ri, hri, k, by simp [hk], hki, rk, hrk, hcm⟩
                intro i hi
                simp only [jsAux, if_neg hi0, hq, hpart] at hi ⊢
                exact ih _ hlr hndr hm' i hi

/-- Completeness of the greedy scan: a compatible pair, with the first
element strictly earlier, never survives with both sides unmatched. -/
theorem jsAux_complete (l : List (ℕ × Row)) :
    ∀ (m : List ℕ), (l.map Prod.fst).Nodup →
      ∀ (la : List (ℕ × Row)) (ia : ℕ) (ra : Row) (lb : List (ℕ × Row))
        (ib : ℕ) (rb : Row),
        l = la ++ (ia, ra) :: lb → (ib, rb) ∈ lb →
        ∀ qa qb, parse_quantity ra.quantity = some qa →
          parse_quantity rb.quantity = some qb →
          ra.symbol = rb.symbol → ra.date = rb.date → ra.price = rb.price →
          flt (fabs (fadd qa qb)) f001 →
          ia ∈ jsAux l m ∨ ib ∈ jsAux l m := by
  induction l with
  | nil =>
      intro m _ la ia ra lb ib rb heq
      cases la <;> simp at heq
  | cons p rest ih =>
      obtain ⟨i0, r1⟩ := p
      intro m hnd la ia ra lb ib rb heq hb qa qb hqa hqb hs hd hpr hf
      have hndc : (i0 :: rest.map Prod.fst).Nodup := by
        have h := hnd
        rw [List.map_cons] at h
        exact h
      have hni0 : i0 ∉ rest.map Prod.fst := (List.nodup_cons.mp hndc).1
      have hndr : (rest.map Prod.fst).Nodup := (List.nodup_cons.mp hndc).2
      cases la with
      | nil =>
          rw [List.nil_append] at heq
          injection heq with h1 h2
          rw [Prod.mk.injEq] at h1
          obtain ⟨hia, hra⟩ := h1
          subst hia
          subst hra
          subst h2
          by_cases hi0 : i0 ∈ m
          · left
            simp only [jsAux, if_pos hi0]
            exact jsAux_mono rest m i0 hi0
          · cases hpart : jsFirstPartner r1 qa m rest with
            | some j =>
                left
                simp only [jsAux, if_neg hi0, hqa, hpart]
                exact jsAux_mono rest _ i0 (by simp)
            | none =>
                by_cases hbm : ib ∈ m
                · right
                  simp only [jsAux, if_neg hi0, hqa, hpart]
                  exact jsAux_mono rest m ib hbm
                · exfalso
                  exact jsFirstPartner_none r1 qa rest m hpart ib rb hb hbm qb hqb
                    ⟨hs, hd, hpr, hf⟩
      | cons p' la2 =>
          rw [List.cons_append] at heq
          injection heq with h1 h2
          subst h1
          by_cases hi0 : i0 ∈ m
          · simp only [jsAux, if_pos hi0]
            exact ih m hndr la2 ia ra lb ib rb h2 hb qa qb hqa hqb hs hd hpr hf
          · cases hq : parse_quantity r1.quantity with
            | none =>
                simp only [jsAux, if_neg hi0, hq]
                exact ih m hndr la2 ia ra lb ib rb h2 hb qa qb hqa hqb hs hd hpr hf
            | some q1 =>
                cases hpart : jsFirstPartner r1 q1 m rest with
                | none =>
                    simp only [jsAux, if_neg hi0, hq, hpart]
                    exact ih m hndr la2 ia ra lb ib rb h2 hb qa qb hqa hqb hs hd hpr hf
                | some j =>
                    simp only [jsAux, if_neg hi0, hq, hpart]
                    exact ih _ hndr la2 ia ra lb ib rb h2 hb qa qb hqa hqb hs hd hpr hf

/-- C3: `_match_journaled_shares` pairs Journaled-Shares rows greedily: every
matched index has a distinct matched partner whose row agrees on Symbol, Date
and Price as raw strings and whose quantity parses and sums with it to within
0.01 of zero (soundness); a compatible pair never survives with both sides
unmatched (completeness of the greedy scan); rows with unparseable Quantity
are never matched; `filter_journaled_shares` never drops a non-transfer row
on success; and on the Example-1 rows the two META rows vanish while the Buy
row survives. -/
theorem C3_journaled_shares_matching :
    (∀ (rows : List Row) (i : ℕ), i ∈ matchJournaledShares rows →
      ∃ ri, rows[i]? = some ri ∧ ∃ j, j ∈ matchJournaledShares rows ∧ j ≠ i ∧
        ∃ rj, rows[j]? = some rj ∧ jsCompatible ri rj) ∧
    (∀ (rows : List Row) (i j : ℕ) (ri rj : Row), i < j →
      rows[i]? = some ri → rows[j]? = some rj → jsCompatible ri rj →
      i ∈ matchJournaledShares rows ∨ j ∈ matchJournaledShares rows) ∧
    (∀ (rows : List Row) (i : ℕ) (ri : Row), rows[i]? = some ri →
      parse_quantity ri.quantity = none → i ∉ matchJournaledShares rows) ∧
    (∀ (rows : List Row) (keep : Bool) (accounts : Option (List String))
      (res : List Row), filter_journaled_shares rows keep accounts = some res →
      ∀ r ∈ rows, ¬ r.action = "Journaled Shares" → ¬ r.action = "Journal" →
        r ∈ res) ∧
    (filter_journaled_shares
      [⟨"08/18/2024", "Journaled Shares", "META", "META PLATFORMS INC",
        "$475.00", "-161", "", ""⟩,
       ⟨"08/18/2024", "Journaled Shares", "META", "META PLATFORMS INC",
        "$475.00", "161", "", ""⟩,
       ⟨"08/19/2024", "Buy", "AAPL", "APPLE INC", "$100.00", "1", "",
        "-$100.00"⟩]
      false none =
      some [⟨"08/19/2024", "Buy", "AAPL", "APPLE INC", "$100.00", "1", "",
        "-$100.00"⟩]) := by
  have henum : ∀ (rows : List Row), ∀ p ∈ rows.enum, rows[p.1]? = some p.2 :=
    fun rows p hp => List.mem_enum_iff_getElem?.mp hp
  have hnd : ∀ (rows : List Row), (rows.enum.map Prod.fst).Nodup := by
    intro rows; rw [List.enum_map_fst]; exact List.nodup_range _
  have hsound : ∀ (rows : List Row) (i : ℕ), i ∈ matchJournaledShares rows →
      ∃ ri, rows[i]? = some ri ∧ ∃ j, j ∈ matchJournaledShares rows ∧ j ≠ i ∧
        ∃ rj, rows[j]? = some rj ∧ jsCompatible ri rj := by
    intro rows i hi
    exact jsAux_sound rows rows.enum [] (henum rows) (hnd rows)
      (fun i hi => absurd hi (List.not_mem_nil i)) i hi
  refine ⟨hsound, ?_, ?_, ?_, ?_⟩
  · intro rows i j ri rj hij hri hrj hcomp
    obtain ⟨hs, hd, hp, qa, qb, hqa, hqb, hq⟩ := hcomp
    have hienum : rows.enum[i]? = some (i, ri) := by
      rw [List.getElem?_enum, hri]; rfl
    have hjenum : rows.enum[j]? = some (j, rj) := by
      rw [List.getElem?_enum, hrj]; rfl
    obtain ⟨hilt, higet⟩ := List.getElem?_eq_some.mp hienum
    have hdecomp : rows.enum =
        rows.enum.take i ++ (i, ri) :: rows.enum.drop (i + 1) := by
      conv_lhs => rw [← List.take_append_drop i rows.enum]
      rw [List.drop_eq_getElem_cons hilt, higet]
    have hblb : (j, rj) ∈ rows.enum.drop (i + 1) := by
      have h2 : (rows.enum.drop (i + 1))[j - (i + 1)]? = some (j, rj) := by
        rw [List.getElem?_drop]
        rw [show i + 1 + (j - (i + 1)) = j from by omega]
        exact hjenum
      exact List.getElem?_mem h2
    have hflt : flt (fabs (fadd qa qb)) f001 := by
      rw [flt_iff, toQ_fabs, toQ_fadd, toQ_f001]; exact hq
    exact jsAux_complete rows.enum [] (hnd rows) (rows.enum.take i) i ri
      (rows.enum.drop (i + 1)) j rj hdecomp hblb qa qb hqa hqb hs hd hp hflt
  · intro rows i ri hri hnone hi
    obtain ⟨ri', hri', j, hj, hji, rj, hrj, hcomp⟩ := hsound rows i hi
    rw [hri] at hri'
    injection hri' with hri'
    subst hri'
    obtain ⟨_, _, _, q1, _, hq1, _, _⟩ := hcomp
    rw [hnone] at hq1
    exact Option.noConfusion hq1
  · intro rows keep accounts res hres r hr h1 h2
    unfold filter_journaled_shares at hres
    split at hres
    · injection hres with hres
      subst hres
      exact hr
    · split at hres
      · exact Option.noConfusion hres
      · injection hres with hres
        subst hres
        unfold combineResults
        apply List.mem_append_left
        exact List.mem_filter.mpr ⟨hr, by simp [h1, h2]⟩
  · rfl

/-- The matcher of `C3_journaled_shares_matching` applied to the Example-1
META pair: the greedy scan cannot leave both rows unmatched. -/
theorem C3_journaled_shares_matching_witness :
    0 ∈ matchJournaledShares
        [⟨"08/18/2024", "Journaled Shares", "META", "META PLATFORMS INC",
          "$475.00", "-161", "", ""⟩,
         ⟨"08/18/2024", "Journaled Shares", "META", "META PLATFORMS INC",
          "$475.00", "161", "", ""⟩] ∨
    1 ∈ matchJournaledShares
        [⟨"08/18/2024", "Journaled Shares", "META", "META PLATFORMS INC",
          "$475.00", "-161", "", ""⟩,
         ⟨"08/18/2024", "Journaled Shares", "META", "META PLATFORMS INC",
          "$475.00", "161", "", ""⟩] := by
  apply C3_journaled_shares_matching.2.1 _ 0 1 _ _ (by decide) rfl rfl
  exact ⟨rfl, rfl, rfl, ⟨-161, 1, Nat.one_pos⟩, ⟨161, 1, Nat.one_pos⟩,
    rfl, rfl, by norm_num [toQ]⟩

/-! ## Claim C1: account verification of journal-transfer matching -/

/-- C1 counterexample: under active account verification (merge set
`{"157"}`), a TO/FRM candidate pair on which account extraction fails on
BOTH descriptions is nevertheless matched: the `if acct1 and acct2:` guard
skips the account check entirely instead of rejecting the pair. -/
theorem C1_counterexample :
    matchJournalTransfers
      [⟨"09/10/2024", "Journal", "", "JOURNAL TO OTHER SIDE", "", "", "",
        "-$100"⟩,
       ⟨"09/10/2024", "Journal", "", "JOURNAL FRM SOMEWHERE", "", "", "",
        "$100"⟩]
      (some ["157"]) = [1, 0] ∧
    extract_journal_account (strUpper "JOURNAL TO OTHER SIDE") = none ∧
    extract_journal_account (strUpper "JOURNAL FRM SOMEWHERE") = none :=
  ⟨rfl, rfl, rfl⟩

/-- C1 (amended): for a two-row TO/FRM candidate pair under active account
verification that agrees on date and has amounts summing to within 0.01 of
zero, the pair is matched unless the account cross-check rejects it, and the
cross-check rejects exactly when BOTH descriptions yield an extracted account
and at least one of the two lies outside the merge set; when extraction
fails on either side the check is skipped and the pair is matched. -/
theorem C1_account_check_scope (r1 r2 : Row) (accts : List String)
    (amt1 amt2 : Frac)
    (hne : accts ≠ [])
    (ha1 : parse_amount r1.amount = some amt1)
    (ha2 : parse_amount r2.amount = some amt2)
    (hd : r1.date = r2.date)
    (hto : hasJournalTo r1.description = true)
    (hfrm : hasJournalFrm r2.description = true)
    (hsum : flt (fabs (fadd amt1 amt2)) f001) :
    (matchJournalTransfers [r1, r2] (some accts) =
      if journalAccountReject (some accts)
          (extract_journal_account (strUpper r1.description))
          (extract_journal_account (strUpper r2.description)) = true
      then [] else [1, 0]) ∧
    (∀ a1 a2 : Option String,
      journalAccountReject (some accts) a1 a2 = true ↔
        ∃ x y, a1 = some x ∧ a2 = some y ∧ (x ∉ accts ∨ y ∉ accts)) := by
  constructor
  · have htr : accountsTruthy (some accts) = true := by
      simp [accountsTruthy, hne]
    have hm0 : ¬ (0 : ℕ) ∈ ([] : List ℕ) := by simp
    have hm1 : ¬ (1 : ℕ) ∈ ([] : List ℕ) := by simp
    have hm2 : (1 : ℕ) ∈ ([1, 0] : List ℕ) := by simp
    have hdir1 : ¬ ¬ (hasJournalTo r1.description = true ∨
        hasJournalFrm r1.description = true) := by simp [hto]
    have hdir2 : ¬ ¬ (hasJournalTo r2.description = true ∨
        hasJournalFrm r2.description = true) := by simp [hfrm]
    have hnil : ∀ (r : Row) (amt : Frac) (acct : Option String) (m : List ℕ),
        jtFirstPartner r amt acct (some accts) m [] = none :=
      fun _ _ _ _ => rfl
    by_cases hrej : journalAccountReject (some accts)
        (extract_journal_account (strUpper r1.description))
        (extract_journal_account (strUpper r2.description)) = true
    · have hstep : jtFirstPartner r1 amt1
          (extract_journal_account (strUpper r1.description)) (some accts) []
          [(1, r2)] = none := by
        simp only [jtFirstPartner, ha2, if_neg hm1]
        rw [if_neg (by simp [hd])]
        rw [if_neg (by simp [hto, hfrm])]
        rw [if_neg (not_fle_of_flt hsum)]
        rw [if_pos ⟨htr, hrej⟩]
      show jtAux (some accts) [(0, r1), (1, r2)] [] = _
      rw [if_pos hrej]
      simp only [jtAux, ha1, ha2, if_neg hm0, if_neg hm1, if_neg hdir1,
        if_neg hdir2, htr, eq_self_iff_true, if_true, hstep, hnil]
    · have hstep : jtFirstPartner r1 amt1
          (extract_journal_account (strUpper r1.description)) (some accts) []
          [(1, r2)] = some 1 := by
        simp only [jtFirstPartner, ha2, if_neg hm1]
        rw [if_neg (by simp [hd])]
        rw [if_neg (by simp [hto, hfrm])]
        rw [if_neg (not_fle_of_flt hsum)]
        rw [if_neg (fun hc => hrej hc.2)]
      show jtAux (some accts) [(0, r1), (1, r2)] [] = _
      rw [if_neg hrej]
      simp only [jtAux, ha1, ha2, if_neg hm0, if_neg hdir1, htr,
        eq_self_iff_true, if_true, hstep, if_pos hm2]
  · intro a1 a2
    cases a1 with
    | none => simp [journalAccountReject]
    | some x =>
        cases a2 with
        | none => simp [journalAccountReject]
        | some y =>
            simp only [journalAccountReject]
            rw [if_neg hne]
            by_cases hx : x ∈ accts
            · rw [if_pos hx]
              by_cases hy : y ∈ accts
              · rw [if_pos hy]; simp [hx, hy]
              · rw [if_neg hy]; simp [hx, hy]
            · rw [if_neg hx]; simp [hx]

/-- `C1_account_check_scope` applied to the Example-4 pair "TO ...999" /
"FRM ...157" under merge set `{"157"}`: both accounts extract, 999 is
outside the set, so the pair is rejected; with `keep_unmatched`, both rows
survive `filter_journaled_shares` unchanged. -/
theorem C1_account_check_scope_witness :
    matchJournalTransfers
      [⟨"09/10/2024", "Journal", "", "JOURNAL TO ...999", "", "", "",
        "-$100"⟩,
       ⟨"09/10/2024", "Journal", "", "JOURNAL FRM ...157", "", "", "",
        "$100"⟩]
      (some ["157"]) = [] ∧
    filter_journaled_shares
      [⟨"09/10/2024", "Journal", "", "JOURNAL TO ...999", "", "", "",
        "-$100"⟩,
       ⟨"09/10/2024", "Journal", "", "JOURNAL FRM ...157", "", "", "",
        "$100"⟩]
      true (some ["157"]) =
      some [⟨"09/10/2024", "Journal", "", "JOURNAL TO ...999", "", "", "",
        "-$100"⟩,
       ⟨"09/10/2024", "Journal", "", "JOURNAL FRM ...157", "", "", "",
        "$100"⟩] := by
  constructor
  · have h := C1_account_check_scope
      ⟨"09/10/2024", "Journal", "", "JOURNAL TO ...999", "", "", "", "-$100"⟩
      ⟨"09/10/2024", "Journal", "", "JOURNAL FRM ...157", "", "", "", "$100"⟩
      ["157"] ⟨-100, 1, Nat.one_pos⟩ ⟨100, 1, Nat.one_pos⟩
      (by decide) rfl rfl rfl rfl rfl (by decide)
    rw [h.1]
    rfl
  · rfl

/-! ## Claim C2: unmatched external journal rows -/

/-- C2 counterexample: a single unmatched Journal row whose extracted
account ("999") is outside the merge set `{"157"}` does not make the
operation fail, but with `keep_unmatched = false` it is silently dropped
from the successful output — it does not "always appear". -/
theorem C2_counterexample :
    filter_journaled_shares
      [⟨"09/10/2024", "Journal", "", "JOURNAL TO ...999", "", "", "",
        "-$100"⟩]
      false (some ["157"]) = some [] ∧
    extract_journal_account "JOURNAL TO ...999" = some "999" ∧
    ¬ "999" ∈ (["157"] : List String) :=
  ⟨rfl, rfl, by decide⟩

/-- C2 (amended): with `keep_unmatched = true` validation never fails; under
active account verification, if every unmatched Journal row's extracted
account (when any) is outside the merge set and there is no unmatched
Journaled-Shares row, validation succeeds for either flag; with
`keep_unmatched = false` the combined output is exactly the non-transfer
rows (so unmatched external rows are dropped), while with
`keep_unmatched = true` every unmatched Journal row appears in the
output. -/
theorem C2_external_unmatched :
    (∀ (journaled journal : List Row) (jsM jM : List ℕ)
      (accounts : Option (List String)),
      validateUnmatched journaled journal jsM jM accounts true = false) ∧
    (∀ (journaled journal : List Row) (jsM jM : List ℕ) (accts : List String)
      (keep : Bool), accts ≠ [] →
      ((List.range journaled.length).filter (fun i => i ∉ jsM)) = [] →
      (∀ idx r, idx ∉ jM → journal[idx]? = some r →
        ∀ acct, extract_journal_account r.description = some acct →
          acct ∉ accts) →
      validateUnmatched journaled journal jsM jM (some accts) keep = false) ∧
    (∀ (other journaled journal : List Row) (jsM jM : List ℕ),
      combineResults other journaled journal jsM jM false = other) ∧
    (∀ (other journaled journal : List Row) (jsM jM : List ℕ) (idx : ℕ)
      (r : Row), idx ∉ jM → journal[idx]? = some r →
      r ∈ combineResults other journaled journal jsM jM true) := by
  refine ⟨?_, ?_, ?_, ?_⟩
  · intro journaled journal jsM jM accounts
    unfold validateUnmatched
    rw [if_neg (by simp), if_neg (by simp)]
  · intro journaled journal jsM jM accts keep hne hjs hExt
    unfold validateUnmatched
    have hprob : (((List.range journal.length).filter (fun i => i ∉ jM)).filter
        (fun idx =>
          match journal[idx]? with
          | some r => problematicJournal (some accts) r
          | none => false)) = [] := by
      apply List.filter_eq_nil_iff.mpr
      intro idx hidx
      have hnm : idx ∉ jM := by
        have h2 := List.mem_filter.mp hidx
        simpa using h2.2
      cases hj : journal[idx]? with
      | none => exact fun hmem => Bool.noConfusion hmem
      | some r =>
          show ¬ problematicJournal (some accts) r = true
          unfold problematicJournal
          cases hacct : extract_journal_account r.description with
          | none => exact fun hmem => Bool.noConfusion hmem
          | some acct =>
              intro hmem
              have hacm : acct ∈ accts := by simpa using hmem
              exact hExt idx r hnm hj acct hacct hacm
    rw [if_neg (fun hcond => hcond.2.2.2 hprob)]
    rw [if_neg (fun hcond => by
      rcases hcond.2.2 with h1 | h2
      · exact h1 hjs
      · have hf := h2.2
        simp [accountsTruthy, hne] at hf)]
  · intro other journaled journal jsM jM
    unfold combineResults
    simp
  · intro other journaled journal jsM jM idx r hnm hj
    unfold combineResults
    rw [if_pos rfl]
    refine List.mem_append_right _ (List.mem_append_right _ ?_)
    apply List.mem_filterMap.mpr
    refine ⟨idx, ?_, hj⟩
    apply List.mem_filter.mpr
    refine ⟨List.mem_range.mpr (List.getElem?_eq_some.mp hj).1, by simpa using hnm⟩

/-- `C2_external_unmatched` applied to the single external Journal row
"JOURNAL TO ...999" under merge set `{"157"}`: validation succeeds with
`keep_unmatched = false`, and with `keep_unmatched = true` the row appears
in the combined output. -/
theorem C2_external_unmatched_witness :
    validateUnmatched []
      [⟨"09/10/2024", "Journal", "", "JOURNAL TO ...999", "", "", "",
        "-$100"⟩] [] [] (some ["157"]) false = false ∧
    (⟨"09/10/2024", "Journal", "", "JOURNAL TO ...999", "", "", "",
      "-$100"⟩ : Row) ∈ combineResults
      [⟨"08/19/2024", "Buy", "AAPL", "APPLE INC", "$100.00", "1", "",
        "-$100.00"⟩] []
      [⟨"09/10/2024", "Journal", "", "JOURNAL TO ...999", "", "", "",
        "-$100"⟩] [] [] true := by
  constructor
  · apply C2_external_unmatched.2.1 [] _ [] [] ["157"] false (by decide) rfl
    intro idx r hnm hj acct hacct
    cases idx with
    | zero =>
        have h0 : ([⟨"09/10/2024", "Journal", "", "JOURNAL TO ...999", "",
            "", "", "-$100"⟩] : List Row)[0]? =
            some ⟨"09/10/2024", "Journal", "", "JOURNAL TO ...999", "", "",
              "", "-$100"⟩ := rfl
        rw [h0] at hj
        injection hj with hj
        subst hj
        have h1 : extract_journal_account
            (⟨"09/10/2024", "Journal", "", "JOURNAL TO ...999", "", "", "",
              "-$100"⟩ : Row).description = some "999" := rfl
        rw [h1] at hacct
        injection hacct with hacct
        subst hacct
        decide
    | succ n => simp at hj
  · exact C2_external_unmatched.2.2.2 _ [] _ [] [] 0 _ (by decide) rfl

end Schwab
